import Mathlib

/-!
Verification of the cloud-syncer reconciliation engine (src/main.go).

The remote store is modelled as a path-keyed state: a map from relative path
to file entry for non-folder objects, and a map from relative path to folder
id for folders (the mapping root folder sits at path ""). The remote transport
itself is an external collaborator of the repository, so its semantics
(list, create, update, delete) is modelled from the spec, section 6, while
every reconciler function below is a direct translation of the corresponding
function in src/main.go. Machine-level details that the claims do not touch
(hash computation bytes, JSON decoding) stay abstract: a local file is its
relative path plus the fingerprint computeMD5 would produce, and the content
stored by a create or update call carries that same fingerprint, because the
remote contentHash convention matches the local one (spec, section 4.2).
-/

namespace CloudSyncer

/-- Remote object identifier. Ids that exist before a run (the mapping root,
scanned objects) are tagged with Sum.inl; ids minted by a create call during
a run are Sum.inr of the store counter, reflecting that the remote store
returns fresh opaque ids. -/
abbrev Rid := String ⊕ Nat

/-- A non-folder remote object as the reconciler sees it: its opaque id and its
content hash (the Md5Checksum field used in src/main.go). -/
structure RemoteFile where
  id : Rid
  md5 : String
  deriving Repr, DecidableEq

/-- State of the remote store below one mapping root, keyed by relative path.
Modelled from the spec (section 3): RemoteIndex keys are unique per run, and
folders and files live in the same path namespace. -/
structure DriveSt where
  files : List (String × RemoteFile)
  folders : List (String × Rid)
  nextId : Nat
  deriving Repr, DecidableEq

/-- Slash path joining, as performed by filepath.Join on the scanned paths and
by the incremental cache-key construction in uploadFile. -/
def joinPath (dir name : String) : String :=
  if dir = "" then name else dir ++ "/" ++ name

/-- Association-list lookup; models reading a Go map. -/
def alookup {α : Type} : List (String × α) → String → Option α
  | [], _ => none
  | (k1, v) :: t, k => if k1 = k then some v else alookup t k

/-- Reverse lookup of a folder id to its relative path, the view the remote
store itself has of where a given parent id lives. -/
def pathOf (st : DriveSt) (fid : Rid) : Option String :=
  (st.folders.find? (fun e => decide (e.2 = fid))).map (fun e => e.1)

/-- Splits a character list at the slash separator, keeping empty segments:
the semantics of strings.Split for the one-character separator "/". -/
def splitChars : List Char → List (List Char)
  | [] => [[]]
  | c :: cs =>
    let r := splitChars cs
    if c = '/' then [] :: r
    else (c :: r.headD []) :: r.tail

/-- Models strings.Split(filepath.ToSlash(rel), "/") from uploadFile
(src/main.go line 194); ToSlash is the identity on slash paths. -/
def splitPath (s : String) : List String :=
  (splitChars s.data).map (fun cs => String.mk cs)

/-- Left fold of joinPath: the relative path reached after descending through
the given segments from the given prefix. -/
def joinAll (pfx : String) (parts : List String) : String :=
  parts.foldl joinPath pfx

/-- The successive cache keys (directory prefixes) that the folder loop of
uploadFile generates for the given segments. -/
def chainKeys (pfx : String) : List String → List String
  | [] => []
  | p :: rest => joinPath pfx p :: chainKeys (joinPath pfx p) rest

/-- Directory-prefix keys of a relative file path: one key per ancestor
directory, innermost last. -/
def dirKeys (rel : String) : List String :=
  chainKeys "" (splitPath rel).dropLast

/-- A relative path that survives splitting at slashes and rejoining. Every
path produced by filepath.Rel during the walk is of this form: nonempty, no
leading or doubled slash. -/
def cleanRel (rel : String) : Prop :=
  joinAll "" (splitPath rel) = rel

instance (rel : String) : Decidable (cleanRel rel) :=
  inferInstanceAs (Decidable (joinAll "" (splitPath rel) = rel))

/-- The id is not one the store could still mint: any externally supplied id,
or a minted id strictly below the store counter. -/
def idFresh (n : Nat) : Rid → Prop
  | Sum.inl _ => True
  | Sum.inr m => m < n

instance (n : Nat) (i : Rid) : Decidable (idFresh n i) :=
  match i with
  | Sum.inl _ => isTrue trivial
  | Sum.inr _ => inferInstanceAs (Decidable (_ < _))

instance (n : Nat) (l : List (String × Rid)) :
    Decidable (∀ e ∈ l, idFresh n e.2) :=
  List.decidableBAll _ l

instance (n : Nat) (l : List (String × RemoteFile)) :
    Decidable (∀ e ∈ l, idFresh n e.2.id) :=
  List.decidableBAll _ l

/-- Well-formedness of the remote store: unique paths, unique opaque ids, and
all minted ids below the counter. This is the shape any real remote tree has
once read through unique relative paths (spec, section 3). -/
structure DriveWF (st : DriveSt) : Prop where
  filePathsND : (st.files.map (fun e => e.1)).Nodup
  fileIdsND : (st.files.map (fun e => e.2.id)).Nodup
  folderPathsND : (st.folders.map (fun e => e.1)).Nodup
  folderIdsND : (st.folders.map (fun e => e.2)).Nodup
  fileIdsFresh : ∀ e ∈ st.files, idFresh st.nextId e.2.id
  folderIdsFresh : ∀ e ∈ st.folders, idFresh st.nextId e.2

/-- One remote API call issued by the reconciler. Path fields are the derived
relative paths the call is about, recorded for specification purposes. -/
inductive Call where
  | folderList (name : String) (parentId : Rid) (dirPath : String)
  | folderCreate (name : String) (parentId : Rid) (dirPath : String) (newId : Rid)
  | fileCreate (name : String) (parentId : Rid) (path : String) (md5 : String) (newId : Rid)
  | fileUpdate (id : Rid) (md5 : String)
  | fileDelete (id : Rid)
  deriving Repr, DecidableEq

def isFolderCreateAt (q : String) : Call → Bool
  | Call.folderCreate _ _ p _ => decide (p = q)
  | _ => false

def isFolderListAt (q : String) : Call → Bool
  | Call.folderList _ _ p => decide (p = q)
  | _ => false

def isDelete : Call → Bool
  | Call.fileDelete _ => true
  | _ => false

def isDeleteOf (i : Rid) : Call → Bool
  | Call.fileDelete j => decide (j = i)
  | _ => false

/-- Number of folder-create calls for the given directory path in a trace. -/
def countFC (t : List Call) (q : String) : Nat := t.countP (isFolderCreateAt q)

/-- Number of folder-lookup calls for the given directory path in a trace. -/
def countFL (t : List Call) (q : String) : Nat := t.countP (isFolderListAt q)

/-- Number of delete calls for the given id in a trace. -/
def countDel (t : List Call) (i : Rid) : Nat := t.countP (isDeleteOf i)

/-- No delete call occurs in the trace. -/
def noDeletes (t : List Call) : Prop := ∀ c ∈ t, isDelete c = false

instance (t : List Call) : Decidable (noDeletes t) :=
  inferInstanceAs (Decidable (∀ c ∈ t, isDelete c = false))

/-- Result of createOrGetFolder: the folder id or an error, the evolved store,
and the calls issued. -/
structure COut where
  res : Except String Rid
  st : DriveSt
  trace : List Call

/-- Translation of createOrGetFolder (src/main.go lines 232-256). Modelled
from the spec for the remote side: the query for a child folder with matching
name under parentID is, in the path-keyed store, the lookup of the joined
child path; creation appends a fresh folder object there. An unknown parent
id fails the call. -/
def createOrGetFolder (folderName : String) (parentID : Rid) (st : DriveSt) : COut :=
  match pathOf st parentID with
  | none => ⟨Except.error "unknown parent folder", st, []⟩
  | some pp =>
    let cp := joinPath pp folderName
    match alookup st.folders cp with
    | some fid => ⟨Except.ok fid, st, [Call.folderList folderName parentID cp]⟩
    | none =>
      ⟨Except.ok (Sum.inr st.nextId),
       { st with folders := (cp, Sum.inr st.nextId) :: st.folders, nextId := st.nextId + 1 },
       [Call.folderList folderName parentID cp,
        Call.folderCreate folderName parentID cp (Sum.inr st.nextId)]⟩

/-- Result of the folder-resolution loop: final parent id (or error), the
folder cache, the evolved store, and the calls issued. -/
structure ChOut where
  res : Except String Rid
  cache : List (String × Rid)
  st : DriveSt
  trace : List Call

/-- The folder-resolution loop of uploadFile (src/main.go lines 197-209):
walk the directory segments left to right; reuse a cached id for the prefix
when present, otherwise call createOrGetFolder and cache the result. -/
def resolveChain (parts : List String) (pfx : String) (parentID : Rid)
    (cache : List (String × Rid)) (st : DriveSt) : ChOut :=
  match parts with
  | [] => ⟨Except.ok parentID, cache, st, []⟩
  | part :: rest =>
    let key := joinPath pfx part
    match alookup cache key with
    | some cid => resolveChain rest key cid cache st
    | none =>
      let c := createOrGetFolder part parentID st
      match c.res with
      | Except.error e => ⟨Except.error e, cache, c.st, c.trace⟩
      | Except.ok fid =>
        let r := resolveChain rest key fid ((key, fid) :: cache) c.st
        ⟨r.res, r.cache, r.st, c.trace ++ r.trace⟩

/-- Result of one per-file action: outcome, folder cache, store, calls. -/
structure FOut where
  res : Except String Unit
  cache : List (String × Rid)
  st : DriveSt
  trace : List Call

/-- Translation of uploadFile (src/main.go lines 193-230): resolve the
directory chain of the relative path, then create the file under the final
parent. The uploaded content is the local file, so the stored contentHash is
the checksum computeMD5 produced for it. -/
def uploadFile (relativePath checksum : String) (parentID : Rid)
    (cache : List (String × Rid)) (st : DriveSt) : FOut :=
  let parts := splitPath relativePath
  let r := resolveChain parts.dropLast "" parentID cache st
  match r.res with
  | Except.error e => ⟨Except.error e, r.cache, r.st, r.trace⟩
  | Except.ok pid =>
    match pathOf r.st pid with
    | none => ⟨Except.error "unknown parent folder", r.cache, r.st, r.trace⟩
    | some pp =>
      let fileName := parts.getLastD ""
      let fpath := joinPath pp fileName
      ⟨Except.ok (), r.cache,
       { r.st with
          files := (fpath, ⟨Sum.inr r.st.nextId, checksum⟩) :: r.st.files,
          nextId := r.st.nextId + 1 },
       r.trace ++ [Call.fileCreate fileName pid fpath checksum (Sum.inr r.st.nextId)]⟩

/-- Translation of updateFile (src/main.go lines 177-191): in-place update of
the object with the given id; its id and path are untouched, its content
hash becomes the local checksum. -/
def updateFile (checksum : String) (fileID : Rid) (st : DriveSt) : DriveSt × List Call :=
  ({ st with
      files := st.files.map (fun e => if e.2.id = fileID then (e.1, ⟨fileID, checksum⟩) else e) },
   [Call.fileUpdate fileID checksum])

/-- Translation of uploadOrUpdateFile (src/main.go lines 135-148): skip when
the scanned index has an entry with equal hash at the relative path, update
in place when the hash differs, upload as new otherwise. -/
def uploadOrUpdateFile (relativePath checksum : String)
    (remoteFiles : List (String × RemoteFile)) (parentID : Rid)
    (cache : List (String × Rid)) (st : DriveSt) : FOut :=
  match alookup remoteFiles relativePath with
  | some remoteFile =>
    if remoteFile.md5 = checksum then ⟨Except.ok (), cache, st, []⟩
    else
      let u := updateFile checksum remoteFile.id st
      ⟨Except.ok (), cache, u.1, u.2⟩
  | none => uploadFile relativePath checksum parentID cache st

/-- One step of the local walk as seen by the callback in syncFiles
(src/main.go lines 75-96): either a regular file with its relative path and
computeMD5 fingerprint, or an error reaching the callback (failed directory
listing, failed filepath.Rel, failed hashing, or a failed remote call for the
file), which aborts the walk at that point. -/
inductive WalkItem where
  | file (rel md5 : String)
  | fserr (msg : String)
  deriving Repr, DecidableEq

def filePair : WalkItem → Option (String × String)
  | WalkItem.file r h => some (r, h)
  | WalkItem.fserr _ => none

/-- The relative-path to fingerprint pairs of the walk, in walk order. -/
def pairsOf (items : List WalkItem) : List (String × String) := items.filterMap filePair

/-- The relative paths of the files of the walk, in walk order. -/
def fileRels (items : List WalkItem) : List String := (pairsOf items).map (fun e => e.1)

/-- Every walk step is a regular file (the walk raises no error). -/
def allFiles (items : List WalkItem) : Prop := ∀ it ∈ items, (filePair it).isSome = true

instance (items : List WalkItem) : Decidable (allFiles items) :=
  inferInstanceAs (Decidable (∀ it ∈ items, (filePair it).isSome = true))

/-- Accumulated run state while the walk is in progress: the local index and
folder cache built so far, the store, and the calls issued so far. -/
structure RunAcc where
  localFiles : List (String × String)
  cache : List (String × Rid)
  st : DriveSt
  trace : List Call

/-- The walk body of syncFiles (src/main.go lines 75-98): record each file in
the local index, then immediately decide and apply its action; abort the walk
on the first error. -/
def processItems (remoteFiles : List (String × RemoteFile)) (rootID : Rid) :
    List WalkItem → RunAcc → Except String Unit × RunAcc
  | [], acc => (Except.ok (), acc)
  | WalkItem.fserr m :: _, acc => (Except.error m, acc)
  | WalkItem.file rel h :: rest, acc =>
    let lf := (rel, h) :: acc.localFiles
    let u := uploadOrUpdateFile rel h remoteFiles rootID acc.cache acc.st
    match u.res with
    | Except.error e => (Except.error e, ⟨lf, u.cache, u.st, acc.trace ++ u.trace⟩)
    | Except.ok _ => processItems remoteFiles rootID rest ⟨lf, u.cache, u.st, acc.trace ++ u.trace⟩

/-- Translation of deleteRemoteFiles (src/main.go lines 150-160): delete, by
id, every entry of the scanned index whose path the local index does not
contain. The unspecified Go map iteration order is fixed to index order; the
claims proved below do not depend on it. -/
def deleteRemoteFiles (localFiles : List (String × String)) :
    List (String × RemoteFile) → DriveSt → DriveSt × List Call
  | [], st => (st, [])
  | (p, rf) :: rest, st =>
    match alookup localFiles p with
    | some _ => deleteRemoteFiles localFiles rest st
    | none =>
      let st1 := { st with files := st.files.filter (fun e => decide (e.2.id ≠ rf.id)) }
      let r := deleteRemoteFiles localFiles rest st1
      (r.1, Call.fileDelete rf.id :: r.2)

/-- Result of one reconciliation run of one mapping. -/
structure SyncResult where
  res : Except String Unit
  st : DriveSt
  localFiles : List (String × String)
  trace : List Call

/-- Translation of syncFiles (src/main.go lines 67-105). Modelled from the
spec for the scan step: a successful fetchRemoteFiles over the path-keyed
store returns exactly its non-folder entries, so the scanned index is the
files component of the store at run start. Then the walk runs with a fresh
local index and folder cache, and on success the orphan-deletion pass runs
against the scanned index. -/
def syncFiles (rootID : Rid) (items : List WalkItem) (st0 : DriveSt) : SyncResult :=
  let remoteFiles := st0.files
  let p := processItems remoteFiles rootID items ⟨[], [], st0, []⟩
  match p.1 with
  | Except.error e => ⟨Except.error e, p.2.st, p.2.localFiles, p.2.trace⟩
  | Except.ok _ =>
    let d := deleteRemoteFiles p.2.localFiles remoteFiles p.2.st
    ⟨Except.ok (), d.1, p.2.localFiles, p.2.trace ++ d.2⟩

/-- Folder creations are bounded along a store transition: none for a path
already present, at most one per path overall, a created path is present
afterwards, presence only grows, and presence at the end comes from presence
at the start or from a recorded create. -/
structure CreateBound (st stF : DriveSt) (t : List Call) : Prop where
  zero : ∀ q, (alookup st.folders q).isSome = true → countFC t q = 0
  atMost : ∀ q, countFC t q ≤ 1
  made : ∀ q, 1 ≤ countFC t q → (alookup stF.folders q).isSome = true
  mono : ∀ q, (alookup st.folders q).isSome = true → (alookup stF.folders q).isSome = true
  src : ∀ q, (alookup stF.folders q).isSome = true →
    (alookup st.folders q).isSome = true ∨ 1 ≤ countFC t q

/-- Folder lookups are bounded along a cache transition, in the same way
creations are bounded along a store transition. -/
structure ListBound (c cF : List (String × Rid)) (t : List Call) : Prop where
  zero : ∀ q, (alookup c q).isSome = true → countFL t q = 0
  atMost : ∀ q, countFL t q ≤ 1
  made : ∀ q, 1 ≤ countFL t q → (alookup cF q).isSome = true
  mono : ∀ q, (alookup c q).isSome = true → (alookup cF q).isSome = true

/-- An entry of a remote folder listing as the scan sees it: a plain file with
name, id and content hash, or a subfolder with its own paginated children. An
empty folder is represented by one empty page. -/
inductive REntry where
  | file (name id md5 : String)
  | folder (name id : String) (pages : List (List REntry))

/-- One observable step of the remote scan: a Files.List call for one page of
one folder (the page index stands for the page token). -/
inductive ScanEv where
  | listCall (folderId : String) (pageIdx : Nat)
  deriving Repr, DecidableEq

mutual
/-- Translation of fetchRemoteFiles (src/main.go lines 107-133): fetch page
pageIdx of parentID (one Files.List call), handle each entry of the page in
order, then follow the next page token. Returns the scan trace and the
accumulated path-to-(id, hash) index entries in write order. -/
def fetchRemoteFiles (parentID : String) (path : String) (pageIdx : Nat) :
    List (List REntry) → List ScanEv × List (String × String × String)
  | [] => ([], [])
  | pg :: rest =>
    let e := fetchEntries path pg
    let r := fetchRemoteFiles parentID path (pageIdx + 1) rest
    (ScanEv.listCall parentID pageIdx :: (e.1 ++ r.1), e.2 ++ r.2)

/-- The per-page entry loop of fetchRemoteFiles (src/main.go lines 116-125):
recurse into a subfolder as soon as it is encountered, record a plain file
into the index. -/
def fetchEntries (path : String) : List REntry → List ScanEv × List (String × String × String)
  | [] => ([], [])
  | REntry.file n i h :: rest =>
    let r := fetchEntries path rest
    (r.1, (joinPath path n, i, h) :: r.2)
  | REntry.folder n i pgs :: rest =>
    let f := fetchRemoteFiles i (joinPath path n) 0 pgs
    let r := fetchEntries path rest
    (f.1 ++ r.1, f.2 ++ r.2)
end

/-- The collaborators of main (src/main.go lines 21-56), abstracted: the
outcome of reading dir_map.json, of JSON-decoding it, of establishing the
Drive service, and of each mapping's syncFiles run (none means success, some
carries the logged error). -/
structure MainEnv where
  readRes : Except String String
  parseRes : String → Except String (List (String × String))
  driveRes : Except String Unit
  syncRes : String → String → Option String

/-- One observable per-mapping event of main: the mapping's reconciliation ran
to completion with the recorded outcome. -/
inductive MainEv where
  | syncDone (localDir remoteId : String) (err : Option String)
  deriving Repr, DecidableEq

/-- Translation of getDriveService (src/main.go lines 58-65) over the
abstract environment. -/
def getDriveService (env : MainEnv) : Except String Unit := env.driveRes

/-- Translation of main (src/main.go lines 21-56): any startup failure exits
with status 1 before any mapping is attempted; otherwise every mapping's
reconciliation runs to completion (the goroutines are joined by the wait
group; they share no state, so they are sequentialized here in map order) and
the process exits 0 regardless of per-mapping sync errors. -/
def mainGo (env : MainEnv) : Nat × List MainEv :=
  match env.readRes with
  | Except.error _ => (1, [])
  | Except.ok raw =>
    match env.parseRes raw with
    | Except.error _ => (1, [])
    | Except.ok dirMap =>
      match getDriveService env with
      | Except.error _ => (1, [])
      | Except.ok _ =>
        (0, dirMap.map (fun m => MainEv.syncDone m.1 m.2 (env.syncRes m.1 m.2)))

/-- All three startup steps of main succeed. -/
def startupOk (env : MainEnv) : Prop :=
  ∃ raw dirMap, env.readRes = Except.ok raw ∧ env.parseRes raw = Except.ok dirMap ∧
    env.driveRes = Except.ok ()

/-- Everything the folder-resolution loop guarantees, relative to the cache
and store it started from: success with the id of the folder at the joined
path, files untouched, folders, cache and counter grown monotonically,
well-formedness kept, every generated prefix materialized, and the folder
calls bounded. -/
structure ChainSpec (pfx : String) (parts : List String) (cache : List (String × Rid))
    (st : DriveSt) (out : ChOut) : Prop where
  ok : ∃ pid, out.res = Except.ok pid ∧ pathOf out.st pid = some (joinAll pfx parts)
  filesEq : out.st.files = st.files
  foldersGrow : ∀ q i, alookup st.folders q = some i → alookup out.st.folders q = some i
  foldersMem : ∀ e ∈ st.folders, e ∈ out.st.folders
  cacheGrow : ∀ q i, alookup cache q = some i → alookup out.cache q = some i
  wf : DriveWF out.st
  cacheOK : ∀ q i, alookup out.cache q = some i → (q, i) ∈ out.st.folders
  nextMono : st.nextId ≤ out.st.nextId
  chain : ∀ q ∈ chainKeys pfx parts, (alookup out.st.folders q).isSome = true
  noDel : noDeletes out.trace
  cb : CreateBound st out.st out.trace
  lb : ListBound cache out.cache out.trace

/-- Everything one successful per-file action (uploadOrUpdateFile) guarantees,
relative to the scanned index origSt.files and to the cache and store it
started from. -/
structure StepSpec (origSt : DriveSt) (rel h : String)
    (cache : List (String × Rid)) (st : DriveSt) (out : FOut) : Prop where
  ok : out.res = Except.ok ()
  wf : DriveWF out.st
  cacheOK : ∀ q i, alookup out.cache q = some i → (q, i) ∈ out.st.folders
  convNew : ∃ i, alookup out.st.files rel = some ⟨i, h⟩
  frameOld : ∀ p, p ≠ rel → alookup out.st.files p = alookup st.files p
  foldersGrow : ∀ q i, alookup st.folders q = some i → alookup out.st.folders q = some i
  foldersMem : ∀ e ∈ st.folders, e ∈ out.st.folders
  cacheGrow : ∀ q i, alookup cache q = some i → alookup out.cache q = some i
  nextMono : st.nextId ≤ out.st.nextId
  noDel : noDeletes out.trace
  cb : CreateBound st out.st out.trace
  lb : ListBound cache out.cache out.trace
  chain : alookup origSt.files rel = none →
    ∀ q ∈ dirKeys rel, (alookup out.st.folders q).isSome = true

/-- Invariant of the walk body, relative to the store origSt at scan time:
the store stays well-formed, the cache only names real folders, the root is
still the folder at path "", folders only grow, the store files agree with
the accumulated local index where it is defined and with the scan-time store
elsewhere. -/
structure PInv (rootID : Rid) (origSt : DriveSt) (acc : RunAcc) : Prop where
  wf : DriveWF acc.st
  cacheOK : ∀ q i, alookup acc.cache q = some i → (q, i) ∈ acc.st.folders
  rootPath : pathOf acc.st rootID = some ""
  foldersGrow : ∀ q i, alookup origSt.folders q = some i → alookup acc.st.folders q = some i
  foldersMem : ∀ e ∈ origSt.folders, e ∈ acc.st.folders
  conv : ∀ p h, alookup acc.localFiles p = some h → ∃ i, alookup acc.st.files p = some ⟨i, h⟩
  frame : ∀ p, alookup acc.localFiles p = none → alookup acc.st.files p = alookup origSt.files p
  nextMono : origSt.nextId ≤ acc.st.nextId

/-- Everything a successful walk body guarantees. -/
structure PSpec (rootID : Rid) (origSt : DriveSt) (items : List WalkItem)
    (acc : RunAcc) (res : Except String Unit) (accF : RunAcc) : Prop where
  ok : res = Except.ok ()
  inv : PInv rootID origSt accF
  localEq : accF.localFiles = (pairsOf items).reverse ++ acc.localFiles
  traceApp : ∃ t, accF.trace = acc.trace ++ t ∧ noDeletes t ∧
    CreateBound acc.st accF.st t ∧ ListBound acc.cache accF.cache t
  stFoldersGrow : ∀ q i, alookup acc.st.folders q = some i → alookup accF.st.folders q = some i
  chains : ∀ pr ∈ pairsOf items, alookup origSt.files pr.1 = none →
    ∀ q ∈ dirKeys pr.1, (alookup accF.st.folders q).isSome = true

/-- Everything one successful reconciliation run guarantees: the claims about
convergence, orphan deletion, folder preservation, call bounds and trace
shape are all read off this record. -/
structure SyncSpec (rootID : Rid) (items : List WalkItem) (st0 : DriveSt)
    (out : SyncResult) : Prop where
  ok : out.res = Except.ok ()
  mirror : ∀ p, (alookup out.st.files p).map (fun e => e.md5) = alookup (pairsOf items) p
  foldersMem : ∀ e ∈ st0.folders, e ∈ out.st.folders
  foldersGrow : ∀ q i, alookup st0.folders q = some i → alookup out.st.folders q = some i
  wf : DriveWF out.st
  rootPath : pathOf out.st rootID = some ""
  localEq : out.localFiles = (pairsOf items).reverse
  traceSplit : ∃ pt dt, out.trace = pt ++ dt ∧ noDeletes pt ∧
    dt = st0.files.filterMap (fun e =>
      if (alookup (pairsOf items) e.1).isSome then none else some (Call.fileDelete e.2.id))
  delOnce : ∀ p rf, (p, rf) ∈ st0.files → alookup (pairsOf items) p = none →
    countDel out.trace rf.id = 1
  delNone : ∀ p rf, (p, rf) ∈ st0.files → (alookup (pairsOf items) p).isSome = true →
    countDel out.trace rf.id = 0
  fcAtMost : ∀ q, countFC out.trace q ≤ 1
  flAtMost : ∀ q, countFL out.trace q ≤ 1
  fcChain : ∀ pr ∈ pairsOf items, alookup st0.files pr.1 = none →
    ∀ q ∈ dirKeys pr.1, alookup st0.folders q = none → countFC out.trace q = 1

/-- Demonstration root id for the closed instances below. -/
def demoRoot : Rid := Sum.inl "ROOT"

/-- Demonstration scan-time store: one remote file old.txt under the root. -/
def demoSt0 : DriveSt :=
  ⟨[("old.txt", ⟨Sum.inl "F1", "h0"⟩)], [("", demoRoot)], 0⟩

/-- Demonstration local walk: a.txt at the root and b.txt in subfolder sub. -/
def demoItems : List WalkItem :=
  [WalkItem.file "a.txt" "h1", WalkItem.file "sub/b.txt" "h2"]

/-- Demonstration store for the type-mismatch edge case: the remote tree has a
folder at relative path a, and no file entries. -/
def demoMismatchSt : DriveSt :=
  ⟨[], [("", Sum.inl "R"), ("a", Sum.inl "FA")], 0⟩

/-- Demonstration remote listing for the scan: the root R pages twice; its
first page holds the subfolder S (one page, one file), its second page holds
a plain file. -/
def demoPages : List (List REntry) :=
  [[REntry.folder "s" "S" [[REntry.file "b" "FB" "h2"]]],
   [REntry.file "a" "FA" "h1"]]

/-! ### Association-list lemmas -/

theorem alookup_mem {α : Type} : ∀ {l : List (String × α)} {k : String} {v : α},
    alookup l k = some v → (k, v) ∈ l
  | [], _, _, h => by simp [alookup] at h
  | (k1, v1) :: t, k, v, h => by
    by_cases hk : k1 = k
    · subst hk
      simp [alookup] at h
      subst h
      exact List.mem_cons_self _ _
    · simp only [alookup, if_neg hk] at h
      exact List.mem_cons_of_mem _ (alookup_mem h)

theorem alookup_of_mem_nodup {α : Type} : ∀ {l : List (String × α)},
    (l.map (fun e => e.1)).Nodup → ∀ {k : String} {v : α}, (k, v) ∈ l → alookup l k = some v
  | [], _, _, _, h => by simp at h
  | (k1, v1) :: t, nd, k, v, h => by
    rcases List.mem_cons.mp h with h1 | h1
    · obtain ⟨hk, hv⟩ := Prod.mk.injEq .. ▸ congrArg id h1 |> fun h2 => Prod.mk.inj h1
      subst hk; subst hv
      simp [alookup]
    · have hk : k1 ≠ k := by
        intro hk
        subst hk
        exact (List.nodup_cons.mp nd).1 (List.mem_map.mpr ⟨(k1, v), h1, rfl⟩)
      simp only [alookup, if_neg hk]
      exact alookup_of_mem_nodup (List.nodup_cons.mp nd).2 h1

theorem alookup_none_iff {α : Type} : ∀ {l : List (String × α)} {k : String},
    alookup l k = none ↔ k ∉ l.map (fun e => e.1)
  | [], k => by simp [alookup]
  | (k1, v1) :: t, k => by
    by_cases hk : k1 = k
    · subst hk
      simp [alookup]
    · simp only [alookup, if_neg hk, List.map_cons, List.mem_cons]
      rw [alookup_none_iff]
      constructor
      · rintro h (h1 | h1)
        · exact hk h1.symm
        · exact h h1
      · intro h
        exact fun h1 => h (Or.inr h1)

theorem alookup_isSome_iff {α : Type} {l : List (String × α)} {k : String} :
    (alookup l k).isSome = true ↔ k ∈ l.map (fun e => e.1) := by
  constructor
  · intro h
    by_contra hk
    rw [← alookup_none_iff] at hk
    rw [hk] at h
    simp at h
  · intro h
    cases hl : alookup l k with
    | none => exact absurd h (alookup_none_iff.mp hl)
    | some v => rfl

theorem alookup_map_val {α : Type} (g : String × α → α) :
    ∀ (l : List (String × α)) (k : String),
    alookup (l.map (fun e => (e.1, g e))) k = (alookup l k).map (fun v => g (k, v))
  | [], k => rfl
  | (k1, v1) :: t, k => by
    by_cases hk : k1 = k
    · subst hk
      simp [alookup]
    · simp only [List.map_cons, alookup, if_neg hk]
      exact alookup_map_val g t k

theorem alookup_filter {α : Type} (f : String × α → Bool) :
    ∀ {l : List (String × α)}, (l.map (fun e => e.1)).Nodup → ∀ (k : String),
    alookup (l.filter f) k = (alookup l k).bind (fun v => if f (k, v) then some v else none)
  | [], _, k => rfl
  | (k1, v1) :: t, nd, k => by
    have ndt := (List.nodup_cons.mp nd).2
    by_cases hk : k1 = k
    · subst hk
      have hnone : alookup t k1 = none :=
        alookup_none_iff.mpr (List.nodup_cons.mp nd).1
      by_cases hf : f (k1, v1) = true
      · simp [List.filter_cons, hf, alookup]
      · have hf2 : f (k1, v1) = false := Bool.eq_false_iff.mpr hf
        have hsub : alookup (t.filter f) k1 = none := by
          rw [alookup_none_iff]
          intro hmem
          obtain ⟨e, he, hke⟩ := List.mem_map.mp hmem
          exact alookup_none_iff.mp hnone (List.mem_map.mpr ⟨e, List.mem_of_mem_filter he, hke⟩)
        simp [List.filter_cons, hf2, alookup, hsub]
    · by_cases hf : f (k1, v1) = true
      · simp only [List.filter_cons, hf, if_pos, alookup, if_neg hk]
        exact alookup_filter f ndt k
      · have hf2 : f (k1, v1) = false := Bool.eq_false_iff.mpr hf
        simp only [List.filter_cons, hf2, alookup, if_neg hk, Bool.false_eq_true, if_false]
        exact alookup_filter f ndt k

theorem alookup_reverse {α : Type} {l : List (String × α)}
    (nd : (l.map (fun e => e.1)).Nodup) (k : String) :
    alookup l.reverse k = alookup l k := by
  have ndr : (l.reverse.map (fun e => e.1)).Nodup := by
    rw [List.map_reverse]
    exact List.nodup_reverse.mpr nd
  cases h : alookup l k with
  | none =>
    rw [alookup_none_iff] at h ⊢
    intro hm
    exact h (by
      obtain ⟨e, he, hke⟩ := List.mem_map.mp hm
      exact List.mem_map.mpr ⟨e, List.mem_reverse.mp he, hke⟩)
  | some v =>
    exact alookup_of_mem_nodup ndr (List.mem_reverse.mpr (alookup_mem h))

/-! ### Trace-count lemmas -/

theorem countFC_append (t1 t2 : List Call) (q : String) :
    countFC (t1 ++ t2) q = countFC t1 q + countFC t2 q :=
  List.countP_append _ _ _

theorem countFL_append (t1 t2 : List Call) (q : String) :
    countFL (t1 ++ t2) q = countFL t1 q + countFL t2 q :=
  List.countP_append _ _ _

theorem countDel_append (t1 t2 : List Call) (i : Rid) :
    countDel (t1 ++ t2) i = countDel t1 i + countDel t2 i :=
  List.countP_append _ _ _

theorem noDeletes_append {t1 t2 : List Call} (h1 : noDeletes t1) (h2 : noDeletes t2) :
    noDeletes (t1 ++ t2) := by
  intro c hc
  rcases List.mem_append.mp hc with h | h
  · exact h1 c h
  · exact h2 c h

theorem noDeletes_nil : noDeletes [] := by
  intro c hc
  simp at hc

/-! ### Folder-id reverse lookup lemmas -/

theorem pathOf_mem {st : DriveSt} {i : Rid} {p : String} (h : pathOf st i = some p) :
    (p, i) ∈ st.folders := by
  unfold pathOf at h
  obtain ⟨e, he, hp⟩ := Option.map_eq_some'.mp h
  have h2 := List.find?_some he
  have h3 := List.mem_of_find?_eq_some he
  have h4 : e.2 = i := of_decide_eq_true h2
  have h5 : e = (p, i) := by
    obtain ⟨a, b⟩ := e
    simp only at hp h4
    rw [hp, h4]
  rw [← h5]
  exact h3

theorem pathOf_of_mem {st : DriveSt} (nd : (st.folders.map (fun e => e.2)).Nodup)
    {p : String} {i : Rid} (h : (p, i) ∈ st.folders) : pathOf st i = some p := by
  unfold pathOf
  cases hf : st.folders.find? (fun e => decide (e.2 = i)) with
  | none =>
    exact absurd (List.find?_eq_none.mp hf _ h) (by simp)
  | some e =>
    have h2 : e.2 = i := by
      have h2a := List.find?_some hf
      simpa using h2a
    have h3 := List.mem_of_find?_eq_some hf
    have h4 : e = (p, i) := by
      apply List.inj_on_of_nodup_map nd h3 h
      simp [h2]
    rw [h4]
    rfl

/-! ### Small helpers -/

theorem alookup_cons_self {α : Type} (k : String) (v : α) (t : List (String × α)) :
    alookup ((k, v) :: t) k = some v := by
  simp [alookup]

theorem alookup_cons_ne {α : Type} {k1 k : String} (h : k1 ≠ k) (v : α)
    (t : List (String × α)) : alookup ((k1, v) :: t) k = alookup t k := by
  simp [alookup, h]

theorem idFresh_mono {n m : Nat} (h : n ≤ m) {i : Rid} (hf : idFresh n i) : idFresh m i := by
  cases i with
  | inl s => trivial
  | inr k => exact lt_of_lt_of_le hf h

theorem idFresh_ne {n : Nat} {i : Rid} (hf : idFresh n i) : i ≠ Sum.inr n := by
  cases i with
  | inl s => simp
  | inr k =>
    intro hk
    rw [Sum.inr.injEq] at hk
    subst hk
    exact lt_irrefl _ hf

theorem joinAll_nil (pfx : String) : joinAll pfx [] = pfx := rfl

theorem joinAll_cons (pfx p : String) (rest : List String) :
    joinAll pfx (p :: rest) = joinAll (joinPath pfx p) rest := rfl

theorem splitChars_ne_nil : ∀ cs : List Char, splitChars cs ≠ []
  | [] => by simp [splitChars]
  | c :: cs => by
    simp only [splitChars]
    split
    · simp
    · simp

theorem splitPath_ne_nil (s : String) : splitPath s ≠ [] := by
  unfold splitPath
  intro h
  exact splitChars_ne_nil s.data (List.map_eq_nil_iff.mp h)

theorem joinAll_last : ∀ (parts : List String), parts ≠ [] → ∀ pfx : String,
    joinPath (joinAll pfx parts.dropLast) (parts.getLastD "") = joinAll pfx parts
  | [], h, _ => absurd rfl h
  | [x], _, pfx => rfl
  | x :: y :: t, _, pfx => by
    have ih := joinAll_last (y :: t) (by simp) (joinPath pfx x)
    simp only [List.dropLast, joinAll_cons, List.getLastD_cons] at *
    exact ih

theorem countDel_zero_of_noDeletes {t : List Call} (h : noDeletes t) (i : Rid) :
    countDel t i = 0 := by
  unfold countDel
  rw [List.countP_eq_zero]
  intro c hc
  have h2 := h c hc
  cases c <;> simp_all [isDeleteOf, isDelete]

theorem countFC_cons_fl (n : String) (pid : Rid) (p : String) (t : List Call) (q : String) :
    countFC (Call.folderList n pid p :: t) q = countFC t q := by
  simp [countFC, List.countP_cons, isFolderCreateAt]

theorem countFC_cons_fc (n : String) (pid : Rid) (p : String) (i : Rid) (t : List Call)
    (q : String) :
    countFC (Call.folderCreate n pid p i :: t) q = countFC t q + if p = q then 1 else 0 := by
  simp only [countFC, List.countP_cons, isFolderCreateAt]
  split <;> simp_all

theorem countFL_cons_fl (n : String) (pid : Rid) (p : String) (t : List Call) (q : String) :
    countFL (Call.folderList n pid p :: t) q = countFL t q + if p = q then 1 else 0 := by
  simp only [countFL, List.countP_cons, isFolderListAt]
  split <;> simp_all

theorem countFL_cons_fc (n : String) (pid : Rid) (p : String) (i : Rid) (t : List Call)
    (q : String) :
    countFL (Call.folderCreate n pid p i :: t) q = countFL t q := by
  simp [countFL, List.countP_cons, isFolderListAt]

theorem countFC_singleton_file (n : String) (pid : Rid) (p m : String) (i : Rid) (q : String) :
    countFC [Call.fileCreate n pid p m i] q = 0 := by
  simp [countFC, List.countP_cons, isFolderCreateAt]

theorem countFL_singleton_file (n : String) (pid : Rid) (p m : String) (i : Rid) (q : String) :
    countFL [Call.fileCreate n pid p m i] q = 0 := by
  simp [countFL, List.countP_cons, isFolderListAt]

theorem countFC_update (i : Rid) (m : String) (q : String) :
    countFC [Call.fileUpdate i m] q = 0 := by
  simp [countFC, List.countP_cons, isFolderCreateAt]

theorem countFL_update (i : Rid) (m : String) (q : String) :
    countFL [Call.fileUpdate i m] q = 0 := by
  simp [countFL, List.countP_cons, isFolderListAt]

/-! ### Bound-predicate algebra -/

theorem cbRefl (st : DriveSt) : CreateBound st st [] := by
  refine ⟨?_, ?_, ?_, ?_, ?_⟩
  · intro q _; rfl
  · intro q; simp [countFC]
  · intro q h; simp [countFC, List.countP_nil] at h
  · exact fun q h => h
  · exact fun q h => Or.inl h

theorem lbRefl (c : List (String × Rid)) : ListBound c c [] := by
  refine ⟨?_, ?_, ?_, ?_⟩
  · intro q _; rfl
  · intro q; simp [countFL]
  · intro q h; simp [countFL, List.countP_nil] at h
  · exact fun q h => h

theorem cbTrans {st1 st2 st3 : DriveSt} {t1 t2 : List Call}
    (h1 : CreateBound st1 st2 t1) (h2 : CreateBound st2 st3 t2) :
    CreateBound st1 st3 (t1 ++ t2) := by
  refine ⟨?_, ?_, ?_, ?_, ?_⟩
  · intro q hq
    rw [countFC_append, h1.zero q hq, h2.zero q (h1.mono q hq)]
  · intro q
    rw [countFC_append]
    rcases Nat.eq_zero_or_pos (countFC t1 q) with h | h
    · rw [h]; simpa using h2.atMost q
    · have h3 := h2.zero q (h1.made q h)
      have h4 := h1.atMost q
      omega
  · intro q hq
    rw [countFC_append] at hq
    rcases Nat.eq_zero_or_pos (countFC t2 q) with h | h
    · have : 1 ≤ countFC t1 q := by omega
      exact h2.mono q (h1.made q this)
    · exact h2.made q h
  · exact fun q hq => h2.mono q (h1.mono q hq)
  · intro q hq
    rcases h2.src q hq with h | h
    · rcases h1.src q h with h3 | h3
      · exact Or.inl h3
      · refine Or.inr ?_
        rw [countFC_append]
        omega
    · refine Or.inr ?_
      rw [countFC_append]
      omega

theorem lbTrans {c1 c2 c3 : List (String × Rid)} {t1 t2 : List Call}
    (h1 : ListBound c1 c2 t1) (h2 : ListBound c2 c3 t2) :
    ListBound c1 c3 (t1 ++ t2) := by
  refine ⟨?_, ?_, ?_, ?_⟩
  · intro q hq
    rw [countFL_append, h1.zero q hq, h2.zero q (h1.mono q hq)]
  · intro q
    rw [countFL_append]
    rcases Nat.eq_zero_or_pos (countFL t1 q) with h | h
    · rw [h]; simpa using h2.atMost q
    · have h3 := h2.zero q (h1.made q h)
      have h4 := h1.atMost q
      omega
  · intro q hq
    rw [countFL_append] at hq
    rcases Nat.eq_zero_or_pos (countFL t2 q) with h | h
    · have : 1 ≤ countFL t1 q := by omega
      exact h2.mono q (h1.made q this)
    · exact h2.made q h
  · exact fun q hq => h2.mono q (h1.mono q hq)

/-- A transition that leaves the folder state unchanged and issues no folder
creations satisfies the creation bound. -/
theorem CreateBound.ofNoFC {st st2 : DriveSt} {t : List Call}
    (hfe : st2.folders = st.folders) (hz : ∀ q, countFC t q = 0) :
    CreateBound st st2 t := by
  refine ⟨?_, ?_, ?_, ?_, ?_⟩
  · exact fun q _ => hz q
  · intro q; rw [hz q]; omega
  · intro q hq; rw [hz q] at hq; omega
  · intro q hq; rw [hfe]; exact hq
  · intro q hq; rw [hfe] at hq; exact Or.inl hq

theorem ListBound.ofNoFL {c c2 : List (String × Rid)} {t : List Call}
    (hce : c2 = c) (hz : ∀ q, countFL t q = 0) :
    ListBound c c2 t := by
  refine ⟨?_, ?_, ?_, ?_⟩
  · exact fun q _ => hz q
  · intro q; rw [hz q]; omega
  · intro q hq; rw [hz q] at hq; omega
  · intro q hq; rw [hce]; exact hq

/-! ### Folder creation and resolution -/

theorem DriveWF.addFolder {st : DriveSt} (hwf : DriveWF st) {key : String}
    (hk : alookup st.folders key = none) :
    DriveWF { st with folders := (key, Sum.inr st.nextId) :: st.folders,
                      nextId := st.nextId + 1 } := by
  have hkey : key ∉ st.folders.map (fun e => e.1) := alookup_none_iff.mp hk
  have hid : (Sum.inr st.nextId : Rid) ∉ st.folders.map (fun e => e.2) := by
    intro hmem
    obtain ⟨e, he, h2⟩ := List.mem_map.mp hmem
    exact absurd h2 (idFresh_ne (hwf.folderIdsFresh e he))
  refine ⟨hwf.filePathsND, hwf.fileIdsND, ?_, ?_, ?_, ?_⟩
  · rw [List.map_cons, List.nodup_cons]
    exact ⟨hkey, hwf.folderPathsND⟩
  · rw [List.map_cons, List.nodup_cons]
    exact ⟨hid, hwf.folderIdsND⟩
  · intro e he
    exact idFresh_mono (Nat.le_succ _) (hwf.fileIdsFresh e he)
  · intro e he
    rcases List.mem_cons.mp he with h | h
    · subst h
      show st.nextId < st.nextId + 1
      exact Nat.lt_succ_self _
    · exact idFresh_mono (Nat.le_succ _) (hwf.folderIdsFresh e h)

theorem pathOf_cons_self (st : DriveSt) (key : String) :
    pathOf { st with folders := (key, Sum.inr st.nextId) :: st.folders,
                     nextId := st.nextId + 1 } (Sum.inr st.nextId) = some key := by
  unfold pathOf
  rw [List.find?_cons_of_pos]
  · rfl
  · simp

theorem folders_isSome_of_mem {st : DriveSt} {key : String} {fid : Rid}
    (hmem : (key, fid) ∈ st.folders) : (alookup st.folders key).isSome = true :=
  alookup_isSome_iff.mpr (List.mem_map.mpr ⟨(key, fid), hmem, rfl⟩)

theorem alookup_cons_isSome {α : Type} {c : List (String × α)} {key q : String} (v : α)
    (h : (alookup c q).isSome = true) : (alookup ((key, v) :: c) q).isSome = true := by
  by_cases hk : key = q
  · subst hk
    rw [alookup_cons_self]
    rfl
  · rw [alookup_cons_ne hk]
    exact h

theorem noDeletes_fl (n : String) (pid : Rid) (p : String) {t : List Call}
    (h : noDeletes t) : noDeletes (Call.folderList n pid p :: t) := by
  intro c hc
  rcases List.mem_cons.mp hc with h1 | h1
  · subst h1; rfl
  · exact h c h1

theorem noDeletes_fc (n : String) (pid : Rid) (p : String) (i : Rid) {t : List Call}
    (h : noDeletes t) : noDeletes (Call.folderCreate n pid p i :: t) := by
  intro c hc
  rcases List.mem_cons.mp hc with h1 | h1
  · subst h1; rfl
  · exact h c h1

theorem resolveChain_spec : ∀ (parts : List String) (pfx : String) (parentID : Rid)
    (cache : List (String × Rid)) (st : DriveSt),
    DriveWF st →
    (∀ q i, alookup cache q = some i → (q, i) ∈ st.folders) →
    pathOf st parentID = some pfx →
    ChainSpec pfx parts cache st (resolveChain parts pfx parentID cache st)
  | [], pfx, parentID, cache, st, hwf, hcw, hp => by
    refine ⟨⟨parentID, rfl, hp⟩, rfl, fun q i h => h, fun e h => h, fun q i h => h,
      hwf, hcw, le_refl _, ?_, noDeletes_nil, cbRefl st, lbRefl cache⟩
    intro q hq
    simp [chainKeys] at hq
  | part :: rest, pfx, parentID, cache, st, hwf, hcw, hp => by
    cases hc : alookup cache (joinPath pfx part) with
    | some cid =>
      have hmem : (joinPath pfx part, cid) ∈ st.folders := hcw _ _ hc
      have hp2 : pathOf st cid = some (joinPath pfx part) :=
        pathOf_of_mem hwf.folderIdsND hmem
      have ih := resolveChain_spec rest (joinPath pfx part) cid cache st hwf hcw hp2
      have heq : resolveChain (part :: rest) pfx parentID cache st =
          resolveChain rest (joinPath pfx part) cid cache st := by
        simp only [resolveChain, hc]
      rw [heq]
      obtain ⟨hok, hfiles, hfg, hfm, hcg, hwf2, hcw2, hnm, hch, hnd, hcb, hlb⟩ := ih
      refine ⟨hok, hfiles, hfg, hfm, hcg, hwf2, hcw2, hnm, ?_, hnd, hcb, hlb⟩
      intro q hq
      rcases List.mem_cons.mp hq with h1 | h1
      · subst h1
        have := hfm _ hmem
        exact folders_isSome_of_mem this
      · exact hch q h1
    | none =>
      cases hfold : alookup st.folders (joinPath pfx part) with
      | some fid =>
        have hmem : (joinPath pfx part, fid) ∈ st.folders := alookup_mem hfold
        have hp2 : pathOf st fid = some (joinPath pfx part) :=
          pathOf_of_mem hwf.folderIdsND hmem
        have hcw2 : ∀ q i, alookup ((joinPath pfx part, fid) :: cache) q = some i →
            (q, i) ∈ st.folders := by
          intro q i h
          by_cases hk : joinPath pfx part = q
          · subst hk
            rw [alookup_cons_self] at h
            cases h
            exact hmem
          · rw [alookup_cons_ne hk] at h
            exact hcw q i h
        have ih := resolveChain_spec rest (joinPath pfx part) fid
          ((joinPath pfx part, fid) :: cache) st hwf hcw2 hp2
        have heq : resolveChain (part :: rest) pfx parentID cache st =
            ⟨(resolveChain rest (joinPath pfx part) fid
                ((joinPath pfx part, fid) :: cache) st).res,
             (resolveChain rest (joinPath pfx part) fid
                ((joinPath pfx part, fid) :: cache) st).cache,
             (resolveChain rest (joinPath pfx part) fid
                ((joinPath pfx part, fid) :: cache) st).st,
             Call.folderList part parentID (joinPath pfx part) ::
               (resolveChain rest (joinPath pfx part) fid
                  ((joinPath pfx part, fid) :: cache) st).trace⟩ := by
          simp only [resolveChain, hc, createOrGetFolder, hp, hfold, List.singleton_append]
        rw [heq]
        obtain ⟨hok, hfiles, hfg, hfm, hcg, hwf2, hcw3, hnm, hch, hnd, hcb, hlb⟩ := ih
        refine ⟨hok, hfiles, hfg, hfm, ?_, hwf2, hcw3, hnm, ?_, noDeletes_fl _ _ _ hnd,
          ?_, ?_⟩
        · intro q i h
          have hk : joinPath pfx part ≠ q := by
            intro hkk
            subst hkk
            rw [h] at hc
            exact Option.noConfusion hc
          exact hcg q i (by rw [alookup_cons_ne hk]; exact h)
        · intro q hq
          rcases List.mem_cons.mp hq with h1 | h1
          · subst h1
            exact folders_isSome_of_mem (hfm _ hmem)
          · exact hch q h1
        · have hstep : CreateBound st st [Call.folderList part parentID (joinPath pfx part)] := by
            refine CreateBound.ofNoFC rfl ?_
            intro q
            rw [countFC_cons_fl]
            rfl
          have := cbTrans hstep hcb
          simpa using this
        · have hstep : ListBound cache ((joinPath pfx part, fid) :: cache)
              [Call.folderList part parentID (joinPath pfx part)] := by
            refine ⟨?_, ?_, ?_, ?_⟩
            · intro q hq
              rw [countFL_cons_fl]
              have hk : joinPath pfx part ≠ q := by
                intro hkk
                subst hkk
                rw [alookup_isSome_iff] at hq
                rw [alookup_none_iff] at hc
                exact hc hq
              simp [hk]
              rfl
            · intro q
              rw [countFL_cons_fl]
              simp [countFL]
              split <;> omega
            · intro q hq
              rw [countFL_cons_fl] at hq
              simp [countFL, List.countP_nil] at hq
              by_cases hk : joinPath pfx part = q
              · subst hk
                rw [alookup_cons_self]
                rfl
              · simp [hk] at hq
            · intro q hq
              exact alookup_cons_isSome _ hq
          have := lbTrans hstep hlb
          simpa using this
      | none =>
        have hwf1 : DriveWF { st with
            folders := (joinPath pfx part, Sum.inr st.nextId) :: st.folders,
            nextId := st.nextId + 1 } := hwf.addFolder hfold
        have hcw1 : ∀ q i,
            alookup ((joinPath pfx part, Sum.inr st.nextId) :: cache) q = some i →
            (q, i) ∈ ({ st with
              folders := (joinPath pfx part, Sum.inr st.nextId) :: st.folders,
              nextId := st.nextId + 1 } : DriveSt).folders := by
          intro q i h
          by_cases hk : joinPath pfx part = q
          · subst hk
            rw [alookup_cons_self] at h
            cases h
            exact List.mem_cons_self _ _
          · rw [alookup_cons_ne hk] at h
            exact List.mem_cons_of_mem _ (hcw q i h)
        have hp2 := pathOf_cons_self st (joinPath pfx part)
        have ih := resolveChain_spec rest (joinPath pfx part) (Sum.inr st.nextId)
          ((joinPath pfx part, Sum.inr st.nextId) :: cache)
          { st with folders := (joinPath pfx part, Sum.inr st.nextId) :: st.folders,
                    nextId := st.nextId + 1 } hwf1 hcw1 hp2
        have heq : resolveChain (part :: rest) pfx parentID cache st =
            ⟨(resolveChain rest (joinPath pfx part) (Sum.inr st.nextId)
                ((joinPath pfx part, Sum.inr st.nextId) :: cache)
                { st with folders := (joinPath pfx part, Sum.inr st.nextId) :: st.folders,
                          nextId := st.nextId + 1 }).res,
             (resolveChain rest (joinPath pfx part) (Sum.inr st.nextId)
                ((joinPath pfx part, Sum.inr st.nextId) :: cache)
                { st with folders := (joinPath pfx part, Sum.inr st.nextId) :: st.folders,
                          nextId := st.nextId + 1 }).cache,
             (resolveChain rest (joinPath pfx part) (Sum.inr st.nextId)
                ((joinPath pfx part, Sum.inr st.nextId) :: cache)
                { st with folders := (joinPath pfx part, Sum.inr st.nextId) :: st.folders,
                          nextId := st.nextId + 1 }).st,
             Call.folderList part parentID (joinPath pfx part) ::
               Call.folderCreate part parentID (joinPath pfx part) (Sum.inr st.nextId) ::
               (resolveChain rest (joinPath pfx part) (Sum.inr st.nextId)
                  ((joinPath pfx part, Sum.inr st.nextId) :: cache)
                  { st with folders := (joinPath pfx part, Sum.inr st.nextId) :: st.folders,
                            nextId := st.nextId + 1 }).trace⟩ := by
          simp only [resolveChain, hc, createOrGetFolder, hp, hfold, List.cons_append,
            List.nil_append]
        rw [heq]
        obtain ⟨hok, hfiles, hfg, hfm, hcg, hwf2, hcw3, hnm, hch, hnd, hcb, hlb⟩ := ih
        have hkeyGrow : ∀ q i, alookup st.folders q = some i →
            alookup ((joinPath pfx part, Sum.inr st.nextId) :: st.folders) q = some i := by
          intro q i h
          have hk : joinPath pfx part ≠ q := by
            intro hkk
            subst hkk
            rw [h] at hfold
            exact Option.noConfusion hfold
          rw [alookup_cons_ne hk]
          exact h
        refine ⟨hok, hfiles, ?_, ?_, ?_, hwf2, hcw3, ?_, ?_, ?_, ?_, ?_⟩
        · intro q i h
          exact hfg q i (hkeyGrow q i h)
        · intro e he
          exact hfm e (List.mem_cons_of_mem _ he)
        · intro q i h
          have hk : joinPath pfx part ≠ q := by
            intro hkk
            subst hkk
            rw [h] at hc
            exact Option.noConfusion hc
          exact hcg q i (by rw [alookup_cons_ne hk]; exact h)
        · exact le_trans (Nat.le_succ _) hnm
        · intro q hq
          rcases List.mem_cons.mp hq with h1 | h1
          · subst h1
            have : alookup ((joinPath pfx part, Sum.inr st.nextId) :: st.folders)
                (joinPath pfx part) = some (Sum.inr st.nextId) := alookup_cons_self _ _ _
            have h2 := hfg _ _ this
            rw [h2]
            rfl
          · exact hch q h1
        · exact noDeletes_fl _ _ _ (noDeletes_fc _ _ _ _ hnd)
        · have hstep : CreateBound st
              { st with folders := (joinPath pfx part, Sum.inr st.nextId) :: st.folders,
                        nextId := st.nextId + 1 }
              [Call.folderList part parentID (joinPath pfx part),
               Call.folderCreate part parentID (joinPath pfx part) (Sum.inr st.nextId)] := by
            refine ⟨?_, ?_, ?_, ?_, ?_⟩
            · intro q hq
              have hk : joinPath pfx part ≠ q := by
                intro hkk
                subst hkk
                rw [alookup_isSome_iff] at hq
                rw [alookup_none_iff] at hfold
                exact hfold hq
              rw [countFC_cons_fl, countFC_cons_fc]
              simp [hk, countFC]
            · intro q
              rw [countFC_cons_fl, countFC_cons_fc]
              simp [countFC]
              split <;> omega
            · intro q hq
              rw [countFC_cons_fl, countFC_cons_fc] at hq
              simp [countFC, List.countP_nil] at hq
              by_cases hk : joinPath pfx part = q
              · subst hk
                show (alookup ((joinPath pfx part, Sum.inr st.nextId) :: st.folders)
                  (joinPath pfx part)).isSome = true
                rw [alookup_cons_self]
                rfl
              · simp [hk] at hq
            · intro q hq
              show (alookup ((joinPath pfx part, Sum.inr st.nextId) :: st.folders) q).isSome = true
              exact alookup_cons_isSome _ hq
            · intro q hq
              by_cases hk : joinPath pfx part = q
              · subst hk
                refine Or.inr ?_
                rw [countFC_cons_fl, countFC_cons_fc]
                simp [countFC]
              · refine Or.inl ?_
                have : alookup ((joinPath pfx part, Sum.inr st.nextId) :: st.folders) q =
                    alookup st.folders q := alookup_cons_ne hk _ _
                rw [show ({ st with
                    folders := (joinPath pfx part, Sum.inr st.nextId) :: st.folders,
                    nextId := st.nextId + 1 } : DriveSt).folders =
                    (joinPath pfx part, Sum.inr st.nextId) :: st.folders from rfl] at hq
                rw [this] at hq
                exact hq
          have := cbTrans hstep hcb
          simpa using this
        · have hstep : ListBound cache
              ((joinPath pfx part, Sum.inr st.nextId) :: cache)
              [Call.folderList part parentID (joinPath pfx part),
               Call.folderCreate part parentID (joinPath pfx part) (Sum.inr st.nextId)] := by
            refine ⟨?_, ?_, ?_, ?_⟩
            · intro q hq
              have hk : joinPath pfx part ≠ q := by
                intro hkk
                subst hkk
                rw [alookup_isSome_iff] at hq
                rw [alookup_none_iff] at hc
                exact hc hq
              rw [countFL_cons_fl, countFL_cons_fc]
              simp [hk, countFL]
            · intro q
              rw [countFL_cons_fl, countFL_cons_fc]
              simp [countFL]
              split <;> omega
            · intro q hq
              rw [countFL_cons_fl, countFL_cons_fc] at hq
              simp [countFL, List.countP_nil] at hq
              by_cases hk : joinPath pfx part = q
              · subst hk
                rw [alookup_cons_self]
                rfl
              · simp [hk] at hq
            · intro q hq
              exact alookup_cons_isSome _ hq
          have := lbTrans hstep hlb
          simpa using this

/-! ### The per-file action -/

theorem updateFile_files (checksum : String) (fid : Rid) (st : DriveSt) :
    (updateFile checksum fid st).1.files =
      st.files.map (fun e => (e.1, if e.2.id = fid then ⟨fid, checksum⟩ else e.2)) := by
  show st.files.map _ = _
  apply List.map_congr_left
  intro e _
  by_cases hc : e.2.id = fid <;> simp [hc]

theorem updateFile_folders (checksum : String) (fid : Rid) (st : DriveSt) :
    (updateFile checksum fid st).1.folders = st.folders := rfl

theorem updateFile_nextId (checksum : String) (fid : Rid) (st : DriveSt) :
    (updateFile checksum fid st).1.nextId = st.nextId := rfl

theorem alookup_updateFile (checksum : String) (fid : Rid) (st : DriveSt) (k : String) :
    alookup (updateFile checksum fid st).1.files k =
      (alookup st.files k).map (fun v => if v.id = fid then ⟨fid, checksum⟩ else v) := by
  rw [updateFile_files]
  exact alookup_map_val (fun e => if e.2.id = fid then ⟨fid, checksum⟩ else e.2) st.files k

theorem updateFile_paths (checksum : String) (fid : Rid) (st : DriveSt) :
    (updateFile checksum fid st).1.files.map (fun e => e.1) =
      st.files.map (fun e => e.1) := by
  rw [updateFile_files, List.map_map]
  apply List.map_congr_left
  intro e _
  rfl

theorem updateFile_ids (checksum : String) (fid : Rid) (st : DriveSt) :
    (updateFile checksum fid st).1.files.map (fun e => e.2.id) =
      st.files.map (fun e => e.2.id) := by
  rw [updateFile_files, List.map_map]
  apply List.map_congr_left
  intro e _
  by_cases hc : e.2.id = fid <;> simp [hc]

theorem DriveWF.update {st : DriveSt} (hwf : DriveWF st) (checksum : String) (fid : Rid) :
    DriveWF (updateFile checksum fid st).1 := by
  refine ⟨?_, ?_, ?_, ?_, ?_, ?_⟩
  · rw [updateFile_paths]
    exact hwf.filePathsND
  · rw [updateFile_ids]
    exact hwf.fileIdsND
  · exact hwf.folderPathsND
  · exact hwf.folderIdsND
  · intro e he
    rw [updateFile_files] at he
    obtain ⟨e0, he0, heq⟩ := List.mem_map.mp he
    subst heq
    show idFresh st.nextId _
    by_cases hc : e0.2.id = fid
    · simp only [hc, if_pos]
      rw [← hc]
      exact hwf.fileIdsFresh e0 he0
    · simp only [hc, if_neg, if_false]
      exact hwf.fileIdsFresh e0 he0
  · exact hwf.folderIdsFresh

/-- The unique entry carrying a given id: any other path holds a different id. -/
theorem entry_id_unique {l : List (String × RemoteFile)}
    (hnd : (l.map (fun e => e.2.id)).Nodup) {rel p : String}
    {rf v : RemoteFile} (hrel : (rel, rf) ∈ l) (hp : (p, v) ∈ l)
    (hne : p ≠ rel) : v.id ≠ rf.id := by
  intro hid
  have := List.inj_on_of_nodup_map hnd hp hrel hid
  rw [Prod.mk.injEq] at this
  exact hne this.1

theorem uploadOrUpdateFile_spec (origSt : DriveSt) (rootID : Rid) (rel h : String)
    (cache : List (String × Rid)) (st : DriveSt)
    (hwf : DriveWF st)
    (hcw : ∀ q i, alookup cache q = some i → (q, i) ∈ st.folders)
    (hroot : pathOf st rootID = some "")
    (hlink : alookup st.files rel = alookup origSt.files rel)
    (hclean : cleanRel rel) :
    StepSpec origSt rel h cache st (uploadOrUpdateFile rel h origSt.files rootID cache st) := by
  cases hrem : alookup origSt.files rel with
  | some rf =>
    have hst : alookup st.files rel = some rf := by rw [hlink, hrem]
    have hmemrel : (rel, rf) ∈ st.files := alookup_mem hst
    by_cases hmd : rf.md5 = h
    · have heq : uploadOrUpdateFile rel h origSt.files rootID cache st =
          ⟨Except.ok (), cache, st, []⟩ := by
        simp only [uploadOrUpdateFile, hrem, hmd, if_pos]
      rw [heq]
      refine ⟨rfl, hwf, hcw, ?_, fun p _ => rfl, fun q i hq => hq, fun e he => he,
        fun q i hq => hq, le_refl _, noDeletes_nil, CreateBound.ofNoFC rfl (fun q => rfl),
        ListBound.ofNoFL rfl (fun q => rfl), ?_⟩
      · refine ⟨rf.id, ?_⟩
        rw [hst, ← hmd]
      · intro hnone
        rw [hnone] at hrem
        exact absurd hrem (by simp)
    · have heq : uploadOrUpdateFile rel h origSt.files rootID cache st =
          ⟨Except.ok (), cache, (updateFile h rf.id st).1, (updateFile h rf.id st).2⟩ := by
        simp only [uploadOrUpdateFile, hrem, hmd, if_neg, if_false]
      rw [heq]
      have htr : (updateFile h rf.id st).2 = [Call.fileUpdate rf.id h] := rfl
      refine ⟨rfl, hwf.update h rf.id, ?_, ?_, ?_, ?_, ?_, fun q i hq => hq, ?_, ?_, ?_, ?_, ?_⟩
      · intro q i hq
        rw [show (updateFile h rf.id st).1.folders = st.folders from rfl]
        exact hcw q i hq
      · refine ⟨rf.id, ?_⟩
        rw [alookup_updateFile, hst]
        simp
      · intro p hp
        rw [alookup_updateFile]
        cases hsp : alookup st.files p with
        | none => rfl
        | some v =>
          have hv : v.id ≠ rf.id := entry_id_unique hwf.fileIdsND hmemrel (alookup_mem hsp) hp
          simp [hv]
      · intro q i hq
        exact hq
      · intro e he
        exact he
      · rw [updateFile_nextId]
      · rw [htr]
        intro c hc
        rcases List.mem_cons.mp hc with h1 | h1
        · subst h1; rfl
        · simp at h1
      · rw [htr]
        exact CreateBound.ofNoFC (updateFile_folders h rf.id st) (countFC_update rf.id h)
      · rw [htr]
        exact ListBound.ofNoFL rfl (countFL_update rf.id h)
      · intro hnone
        rw [hnone] at hrem
        exact absurd hrem (by simp)
  | none =>
    have hst : alookup st.files rel = none := by rw [hlink, hrem]
    have heq0 : uploadOrUpdateFile rel h origSt.files rootID cache st =
        uploadFile rel h rootID cache st := by
      simp only [uploadOrUpdateFile, hrem]
    rw [heq0]
    have hch := resolveChain_spec (splitPath rel).dropLast "" rootID cache st hwf hcw hroot
    obtain ⟨hok, hfiles, hfg, hfm, hcg, hwf2, hcw2, hnm, hchain, hnd, hcb, hlb⟩ := hch
    obtain ⟨pid, hres, hpath⟩ := hok
    have hfpath : joinPath (joinAll "" (splitPath rel).dropLast) ((splitPath rel).getLastD "") =
        rel := by
      rw [joinAll_last (splitPath rel) (splitPath_ne_nil rel) ""]
      exact hclean
    have heq : uploadFile rel h rootID cache st =
        ⟨Except.ok (),
         (resolveChain (splitPath rel).dropLast "" rootID cache st).cache,
         { (resolveChain (splitPath rel).dropLast "" rootID cache st).st with
            files := (rel,
              ⟨Sum.inr (resolveChain (splitPath rel).dropLast "" rootID cache st).st.nextId, h⟩) ::
              (resolveChain (splitPath rel).dropLast "" rootID cache st).st.files,
            nextId := (resolveChain (splitPath rel).dropLast "" rootID cache st).st.nextId + 1 },
         (resolveChain (splitPath rel).dropLast "" rootID cache st).trace ++
           [Call.fileCreate ((splitPath rel).getLastD "") pid rel h
             (Sum.inr (resolveChain (splitPath rel).dropLast "" rootID cache st).st.nextId)]⟩ := by
      simp only [uploadFile, hres, hpath, hfpath]
    rw [heq]
    have hrelnotin :
        rel ∉ (resolveChain (splitPath rel).dropLast "" rootID cache st).st.files.map
          (fun e => e.1) := by
      rw [hfiles]
      exact alookup_none_iff.mp hst
    have hidfresh : ∀ e ∈ (resolveChain (splitPath rel).dropLast "" rootID cache st).st.files,
        idFresh (resolveChain (splitPath rel).dropLast "" rootID cache st).st.nextId e.2.id :=
      hwf2.fileIdsFresh
    refine ⟨rfl, ?_, ?_, ?_, ?_, hfg, hfm, hcg, ?_, ?_, ?_, ?_, ?_⟩
    · refine ⟨?_, ?_, hwf2.folderPathsND, hwf2.folderIdsND, ?_, ?_⟩
      · rw [List.map_cons, List.nodup_cons]
        exact ⟨hrelnotin, hwf2.filePathsND⟩
      · rw [List.map_cons, List.nodup_cons]
        constructor
        · intro hmem
          obtain ⟨e, he, h2⟩ := List.mem_map.mp hmem
          exact absurd h2 (idFresh_ne (hidfresh e he))
        · exact hwf2.fileIdsND
      · intro e he
        rcases List.mem_cons.mp he with h1 | h1
        · subst h1
          show _ < _ + 1
          exact Nat.lt_succ_self _
        · exact idFresh_mono (Nat.le_succ _) (hwf2.fileIdsFresh e h1)
      · intro e he
        exact idFresh_mono (Nat.le_succ _) (hwf2.folderIdsFresh e he)
    · intro q i hq
      exact hcw2 q i hq
    · refine ⟨Sum.inr (resolveChain (splitPath rel).dropLast "" rootID cache st).st.nextId, ?_⟩
      exact alookup_cons_self _ _ _
    · intro p hp
      have hne : rel ≠ p := fun hrp => hp hrp.symm
      rw [alookup_cons_ne hne, hfiles]
    · exact le_trans hnm (Nat.le_succ _)
    · refine noDeletes_append hnd ?_
      intro c hc
      rcases List.mem_cons.mp hc with h1 | h1
      · subst h1; rfl
      · simp at h1
    · refine cbTrans hcb (CreateBound.ofNoFC rfl ?_)
      intro q
      exact countFC_singleton_file _ _ _ _ _ _
    · refine lbTrans hlb (ListBound.ofNoFL rfl ?_)
      intro q
      exact countFL_singleton_file _ _ _ _ _ _
    · intro _ q hq
      exact hchain q hq

/-! ### The walk body -/

theorem isSome_of_grow {fs1 fs2 : List (String × Rid)}
    (hg : ∀ q i, alookup fs1 q = some i → alookup fs2 q = some i) {q : String}
    (h : (alookup fs1 q).isSome = true) : (alookup fs2 q).isSome = true := by
  cases hq : alookup fs1 q with
  | none => rw [hq] at h; exact absurd h (by simp)
  | some i => rw [hg q i hq]; rfl

theorem processItems_spec : ∀ (items : List WalkItem) (rootID : Rid) (origSt : DriveSt)
    (acc : RunAcc),
    PInv rootID origSt acc →
    (fileRels items).Nodup →
    (∀ r ∈ fileRels items, alookup acc.localFiles r = none) →
    (∀ r ∈ fileRels items, cleanRel r) →
    allFiles items →
    PSpec rootID origSt items acc
      (processItems origSt.files rootID items acc).1
      (processItems origSt.files rootID items acc).2
  | [], rootID, origSt, acc, hinv, _, _, _, _ => by
    refine ⟨rfl, hinv, ?_, ⟨[], (List.append_nil _).symm, noDeletes_nil,
      cbRefl _, lbRefl _⟩, fun q i hq => hq, ?_⟩
    · simp [processItems, pairsOf]
    · intro pr hpr
      simp [pairsOf] at hpr
  | WalkItem.fserr m :: rest, rootID, origSt, acc, _, _, _, _, hfiles => by
    have := hfiles (WalkItem.fserr m) (List.mem_cons_self _ _)
    simp [filePair] at this
  | WalkItem.file rel h :: rest, rootID, origSt, acc, hinv, hnd, hnew, hclean, hfiles => by
    have hndc : rel ∉ fileRels rest ∧ (fileRels rest).Nodup := by
      have : fileRels (WalkItem.file rel h :: rest) = rel :: fileRels rest := by
        simp [fileRels, pairsOf, filePair]
      rw [this] at hnd
      exact List.nodup_cons.mp hnd
    have hrelmem : rel ∈ fileRels (WalkItem.file rel h :: rest) := by
      simp [fileRels, pairsOf, filePair]
    have hfr : alookup acc.localFiles rel = none := hnew rel hrelmem
    have hlink : alookup acc.st.files rel = alookup origSt.files rel := hinv.frame rel hfr
    have step := uploadOrUpdateFile_spec origSt rootID rel h acc.cache acc.st
      hinv.wf hinv.cacheOK hinv.rootPath hlink (hclean rel hrelmem)
    have heq : processItems origSt.files rootID (WalkItem.file rel h :: rest) acc =
        processItems origSt.files rootID rest
          ⟨(rel, h) :: acc.localFiles,
           (uploadOrUpdateFile rel h origSt.files rootID acc.cache acc.st).cache,
           (uploadOrUpdateFile rel h origSt.files rootID acc.cache acc.st).st,
           acc.trace ++ (uploadOrUpdateFile rel h origSt.files rootID acc.cache acc.st).trace⟩ := by
      simp only [processItems, step.ok]
    have inv1 : PInv rootID origSt
        ⟨(rel, h) :: acc.localFiles,
         (uploadOrUpdateFile rel h origSt.files rootID acc.cache acc.st).cache,
         (uploadOrUpdateFile rel h origSt.files rootID acc.cache acc.st).st,
         acc.trace ++ (uploadOrUpdateFile rel h origSt.files rootID acc.cache acc.st).trace⟩ := by
      refine ⟨step.wf, step.cacheOK, ?_, ?_, ?_, ?_, ?_, ?_⟩
      · have hmem : ("", rootID) ∈ acc.st.folders := pathOf_mem hinv.rootPath
        exact pathOf_of_mem step.wf.folderIdsND (step.foldersMem _ hmem)
      · intro q i hq
        exact step.foldersGrow q i (hinv.foldersGrow q i hq)
      · intro e he
        exact step.foldersMem e (hinv.foldersMem e he)
      · intro p h2 hp
        by_cases hpr : rel = p
        · subst hpr
          rw [alookup_cons_self] at hp
          cases hp
          exact step.convNew
        · rw [alookup_cons_ne hpr] at hp
          obtain ⟨i, hi⟩ := hinv.conv p h2 hp
          refine ⟨i, ?_⟩
          rw [step.frameOld p (fun hpp => hpr hpp.symm)]
          exact hi
      · intro p hp
        by_cases hpr : rel = p
        · subst hpr
          rw [alookup_cons_self] at hp
          exact absurd hp (by simp)
        · rw [alookup_cons_ne hpr] at hp
          rw [step.frameOld p (fun hpp => hpr hpp.symm)]
          exact hinv.frame p hp
      · exact le_trans hinv.nextMono step.nextMono
    have hnew1 : ∀ r ∈ fileRels rest, alookup ((rel, h) :: acc.localFiles) r = none := by
      intro r hr
      have hne : rel ≠ r := fun hrr => hndc.1 (hrr ▸ hr)
      rw [alookup_cons_ne hne]
      refine hnew r ?_
      simp [fileRels, pairsOf, filePair]
      right
      simpa [fileRels, pairsOf] using hr
    have hclean1 : ∀ r ∈ fileRels rest, cleanRel r := by
      intro r hr
      refine hclean r ?_
      simp [fileRels, pairsOf, filePair]
      right
      simpa [fileRels, pairsOf] using hr
    have hfiles1 : allFiles rest := by
      intro it hit
      exact hfiles it (List.mem_cons_of_mem _ hit)
    have ih := processItems_spec rest rootID origSt _ inv1 hndc.2 hnew1 hclean1 hfiles1
    rw [heq]
    obtain ⟨iok, iinv, ilocal, ⟨t2, hteq, hnd2, hcb2, hlb2⟩, igrow, ichains⟩ := ih
    refine ⟨iok, iinv, ?_, ?_, ?_, ?_⟩
    · rw [ilocal]
      simp [pairsOf, filePair, List.filterMap_cons, List.append_assoc]
    · refine ⟨(uploadOrUpdateFile rel h origSt.files rootID acc.cache acc.st).trace ++ t2,
        ?_, noDeletes_append step.noDel hnd2, cbTrans step.cb hcb2, lbTrans step.lb hlb2⟩
      rw [hteq]
      simp [List.append_assoc]
    · intro q i hq
      exact igrow q i (step.foldersGrow q i hq)
    · intro pr hpr horig q hq
      have hsplit : pr = (rel, h) ∨ pr ∈ pairsOf rest := by
        simpa [pairsOf, filePair, List.filterMap_cons] using hpr
      rcases hsplit with h1 | h1
      · subst h1
        have hpres := step.chain horig q hq
        exact isSome_of_grow igrow hpres
      · exact ichains pr h1 horig q hq

theorem processItems_append (remoteIdx : List (String × RemoteFile)) (rootID : Rid) :
    ∀ (pre rest : List WalkItem) (acc : RunAcc),
    (processItems remoteIdx rootID pre acc).1 = Except.ok () →
    processItems remoteIdx rootID (pre ++ rest) acc =
      processItems remoteIdx rootID rest (processItems remoteIdx rootID pre acc).2
  | [], rest, acc, _ => rfl
  | WalkItem.fserr m :: pre2, rest, acc, hok => by
    rw [show (processItems remoteIdx rootID (WalkItem.fserr m :: pre2) acc).1 =
      Except.error m from rfl] at hok
    exact Except.noConfusion hok
  | WalkItem.file rel h :: pre2, rest, acc, hok => by
    cases hu : (uploadOrUpdateFile rel h remoteIdx rootID acc.cache acc.st).res with
    | error e =>
      rw [show processItems remoteIdx rootID (WalkItem.file rel h :: pre2) acc =
        (Except.error e,
         ⟨(rel, h) :: acc.localFiles,
          (uploadOrUpdateFile rel h remoteIdx rootID acc.cache acc.st).cache,
          (uploadOrUpdateFile rel h remoteIdx rootID acc.cache acc.st).st,
          acc.trace ++ (uploadOrUpdateFile rel h remoteIdx rootID acc.cache acc.st).trace⟩)
        from by simp only [processItems, hu]] at hok
      exact Except.noConfusion hok
    | ok u =>
      have heq1 : processItems remoteIdx rootID (WalkItem.file rel h :: pre2) acc =
          processItems remoteIdx rootID pre2
            ⟨(rel, h) :: acc.localFiles,
             (uploadOrUpdateFile rel h remoteIdx rootID acc.cache acc.st).cache,
             (uploadOrUpdateFile rel h remoteIdx rootID acc.cache acc.st).st,
             acc.trace ++ (uploadOrUpdateFile rel h remoteIdx rootID acc.cache acc.st).trace⟩ := by
        simp only [processItems, hu]
      have heq2 : processItems remoteIdx rootID ((WalkItem.file rel h :: pre2) ++ rest) acc =
          processItems remoteIdx rootID (pre2 ++ rest)
            ⟨(rel, h) :: acc.localFiles,
             (uploadOrUpdateFile rel h remoteIdx rootID acc.cache acc.st).cache,
             (uploadOrUpdateFile rel h remoteIdx rootID acc.cache acc.st).st,
             acc.trace ++ (uploadOrUpdateFile rel h remoteIdx rootID acc.cache acc.st).trace⟩ := by
        simp only [List.cons_append, processItems, hu]
        rfl
      rw [heq1] at hok
      rw [heq2, heq1]
      exact processItems_append remoteIdx rootID pre2 rest _ hok

/-! ### The deletion pass -/

theorem filterMap_congr {α β : Type} {f g : α → Option β} :
    ∀ {l : List α}, (∀ a ∈ l, f a = g a) → l.filterMap f = l.filterMap g
  | [], _ => rfl
  | a :: l, h => by
    have ha := h a (List.mem_cons_self _ _)
    have ht := filterMap_congr (fun b hb => h b (List.mem_cons_of_mem _ hb))
    rw [List.filterMap_cons, List.filterMap_cons, ha, ht]

theorem deleteRemoteFiles_trace (L : List (String × String)) :
    ∀ (idx : List (String × RemoteFile)) (st : DriveSt),
    (deleteRemoteFiles L idx st).2 = idx.filterMap (fun e =>
      if (alookup L e.1).isSome then none else some (Call.fileDelete e.2.id))
  | [], st => rfl
  | (p, rf) :: rest, st => by
    cases hl : alookup L p with
    | some v =>
      have ih := deleteRemoteFiles_trace L rest st
      simp only [deleteRemoteFiles, hl, List.filterMap_cons, Option.isSome_some, if_pos]
      exact ih
    | none =>
      have ih := deleteRemoteFiles_trace L rest
        { st with files := st.files.filter (fun e => decide (e.2.id ≠ rf.id)) }
      simp only [deleteRemoteFiles, hl, List.filterMap_cons, Option.isSome_none,
        Bool.false_eq_true, if_false]
      rw [ih]

theorem deleteRemoteFiles_folders (L : List (String × String)) :
    ∀ (idx : List (String × RemoteFile)) (st : DriveSt),
    (deleteRemoteFiles L idx st).1.folders = st.folders
  | [], st => rfl
  | (p, rf) :: rest, st => by
    cases hl : alookup L p with
    | some v =>
      simp only [deleteRemoteFiles, hl]
      exact deleteRemoteFiles_folders L rest st
    | none =>
      simp only [deleteRemoteFiles, hl]
      exact deleteRemoteFiles_folders L rest _

theorem deleteRemoteFiles_nextId (L : List (String × String)) :
    ∀ (idx : List (String × RemoteFile)) (st : DriveSt),
    (deleteRemoteFiles L idx st).1.nextId = st.nextId
  | [], st => rfl
  | (p, rf) :: rest, st => by
    cases hl : alookup L p with
    | some v =>
      simp only [deleteRemoteFiles, hl]
      exact deleteRemoteFiles_nextId L rest st
    | none =>
      simp only [deleteRemoteFiles, hl]
      exact deleteRemoteFiles_nextId L rest _

theorem deleteRemoteFiles_files (L : List (String × String)) :
    ∀ (idx : List (String × RemoteFile)) (st : DriveSt),
    (idx.map (fun e => e.1)).Nodup →
    (st.files.map (fun e => e.1)).Nodup →
    (st.files.map (fun e => e.2.id)).Nodup →
    (∀ p rf, (p, rf) ∈ idx → alookup L p = none → alookup st.files p = some rf) →
    (∀ p rf, (p, rf) ∈ idx → alookup L p = none →
      alookup (deleteRemoteFiles L idx st).1.files p = none) ∧
    (∀ q, ((alookup L q).isSome = true ∨ q ∉ idx.map (fun e => e.1)) →
      alookup (deleteRemoteFiles L idx st).1.files q = alookup st.files q) ∧
    (deleteRemoteFiles L idx st).1.files.Sublist st.files
  | [], st, _, _, _, _ => by
    refine ⟨?_, ?_, List.Sublist.refl _⟩
    · intro p rf hmem
      simp at hmem
    · intro q _
      rfl
  | (p, rf) :: rest, st, hidxnd, hwfp, hwfi, hcur => by
    have hmapc : ((p, rf) :: rest).map (fun e => e.1) = p :: rest.map (fun e => e.1) := rfl
    have hcons := List.nodup_cons.mp (hmapc ▸ hidxnd)
    have hndr := hcons.2
    have hpnotin : p ∉ rest.map (fun e => e.1) := hcons.1
    cases hl : alookup L p with
    | some v =>
      have ih := deleteRemoteFiles_files L rest st hndr hwfp hwfi
        (fun q rg hq hlq => hcur q rg (List.mem_cons_of_mem _ hq) hlq)
      simp only [deleteRemoteFiles, hl]
      refine ⟨?_, ?_, ih.2.2⟩
      · intro q rg hq hlq
        rcases List.mem_cons.mp hq with h1 | h1
        · rw [Prod.mk.injEq] at h1
          rw [h1.1] at hlq
          rw [hlq] at hl
          exact Option.noConfusion hl
        · exact ih.1 q rg h1 hlq
      · intro q hq
        refine ih.2.1 q ?_
        rcases hq with h1 | h1
        · exact Or.inl h1
        · refine Or.inr ?_
          intro h2
          exact h1 (by simpa using Or.inr (by simpa using h2))
    | none =>
      have hst : alookup st.files p = some rf := hcur p rf (List.mem_cons_self _ _) hl
      have hmemst : (p, rf) ∈ st.files := alookup_mem hst
      have hfilter : ∀ q, alookup (st.files.filter (fun e => decide (e.2.id ≠ rf.id))) q =
          if q = p then none else alookup st.files q := by
        intro q
        rw [alookup_filter _ hwfp]
        by_cases hqp : q = p
        · subst hqp
          rw [hst]
          simp
        · cases hsq : alookup st.files q with
          | none => simp [hqp]
          | some w =>
            have hw : w.id ≠ rf.id := entry_id_unique hwfi hmemst (alookup_mem hsq) hqp
            simp [hqp, hw]
      have hsub : (st.files.filter (fun e => decide (e.2.id ≠ rf.id))).Sublist st.files :=
        List.filter_sublist _
      have hwfp1 : ((st.files.filter (fun e => decide (e.2.id ≠ rf.id))).map
          (fun e => e.1)).Nodup := (hsub.map _).nodup hwfp
      have hwfi1 : ((st.files.filter (fun e => decide (e.2.id ≠ rf.id))).map
          (fun e => e.2.id)).Nodup := (hsub.map _).nodup hwfi
      have hcur1 : ∀ q rg, (q, rg) ∈ rest → alookup L q = none →
          alookup (st.files.filter (fun e => decide (e.2.id ≠ rf.id))) q = some rg := by
        intro q rg hq hlq
        have hqp : q ≠ p := by
          intro hqq
          subst hqq
          exact hpnotin (List.mem_map.mpr ⟨(q, rg), hq, rfl⟩)
        rw [hfilter q, if_neg hqp]
        exact hcur q rg (List.mem_cons_of_mem _ hq) hlq
      have ih := deleteRemoteFiles_files L rest
        { st with files := st.files.filter (fun e => decide (e.2.id ≠ rf.id)) }
        hndr hwfp1 hwfi1 hcur1
      simp only [deleteRemoteFiles, hl]
      refine ⟨?_, ?_, ?_⟩
      · intro q rg hq hlq
        rcases List.mem_cons.mp hq with h1 | h1
        · rw [Prod.mk.injEq] at h1
          rw [h1.1]
          rw [ih.2.1 p (Or.inr hpnotin), hfilter p, if_pos rfl]
        · exact ih.1 q rg h1 hlq
      · intro q hq
        have hqp : q ≠ p := by
          intro hqq
          subst hqq
          rcases hq with h1 | h1
          · rw [hl] at h1
            exact absurd h1 (by simp)
          · exact h1 (by simp)
        have h2 : (alookup L q).isSome = true ∨ q ∉ rest.map (fun e => e.1) := by
          rcases hq with h1 | h1
          · exact Or.inl h1
          · refine Or.inr ?_
            intro h3
            exact h1 (by simpa using Or.inr (by simpa using h3))
        rw [ih.2.1 q h2, hfilter q, if_neg hqp]
      · exact ih.2.2.trans hsub

theorem countDel_delTrace_zero (L : List (String × String)) :
    ∀ (idx : List (String × RemoteFile)) {i : Rid}, i ∉ idx.map (fun e => e.2.id) →
    countDel (idx.filterMap (fun e =>
      if (alookup L e.1).isSome then none else some (Call.fileDelete e.2.id))) i = 0
  | [], i, _ => rfl
  | (q, rg) :: rest, i, hni => by
    have hmapc : ((q, rg) :: rest).map (fun e => e.2.id) = rg.id :: rest.map (fun e => e.2.id) :=
      rfl
    rw [hmapc] at hni
    have hne : rg.id ≠ i := fun he => hni (he ▸ List.mem_cons_self _ _)
    have hnt : i ∉ rest.map (fun e => e.2.id) := fun hm => hni (List.mem_cons_of_mem _ hm)
    have ih := countDel_delTrace_zero L rest hnt
    cases hl : (alookup L q).isSome with
    | true =>
      rw [List.filterMap_cons]
      simp only [hl, if_pos]
      exact ih
    | false =>
      rw [List.filterMap_cons]
      simp only [hl, Bool.false_eq_true, if_false]
      show countDel (Call.fileDelete rg.id :: _) i = 0
      unfold countDel
      rw [List.countP_cons]
      have : isDeleteOf i (Call.fileDelete rg.id) = false := by
        simp [isDeleteOf, hne]
      rw [this]
      simpa [countDel] using ih

theorem countDel_delTrace (L : List (String × String)) :
    ∀ (idx : List (String × RemoteFile)), (idx.map (fun e => e.2.id)).Nodup →
    ∀ {p : String} {rf : RemoteFile}, (p, rf) ∈ idx →
    countDel (idx.filterMap (fun e =>
      if (alookup L e.1).isSome then none else some (Call.fileDelete e.2.id))) rf.id =
      if (alookup L p).isSome then 0 else 1
  | [], _, p, rf, hmem => by simp at hmem
  | (q, rg) :: rest, hnd, p, rf, hmem => by
    have hmapc : ((q, rg) :: rest).map (fun e => e.2.id) = rg.id :: rest.map (fun e => e.2.id) :=
      rfl
    have hcons := List.nodup_cons.mp (hmapc ▸ hnd)
    rcases List.mem_cons.mp hmem with h1 | h1
    · rw [Prod.mk.injEq] at h1
      obtain ⟨hqp, hrg⟩ := h1
      subst hqp
      subst hrg
      cases hl : (alookup L p).isSome with
      | true =>
        rw [List.filterMap_cons]
        simp only [hl, if_pos]
        exact countDel_delTrace_zero L rest hcons.1
      | false =>
        rw [List.filterMap_cons]
        simp only [hl, Bool.false_eq_true, if_false]
        show countDel (Call.fileDelete rf.id :: _) rf.id = 1
        unfold countDel
        rw [List.countP_cons]
        have h2 : isDeleteOf rf.id (Call.fileDelete rf.id) = true := by
          simp [isDeleteOf]
        rw [h2]
        have h3 := countDel_delTrace_zero L rest hcons.1
        unfold countDel at h3
        rw [h3]
        simp
    · have hne : rg.id ≠ rf.id := by
        intro he
        exact hcons.1 (he ▸ List.mem_map.mpr ⟨(p, rf), h1, rfl⟩)
      have ih := countDel_delTrace L rest hcons.2 h1
      cases hl : (alookup L q).isSome with
      | true =>
        rw [List.filterMap_cons]
        simp only [hl, if_pos]
        exact ih
      | false =>
        rw [List.filterMap_cons]
        simp only [hl, Bool.false_eq_true, if_false]
        show countDel (Call.fileDelete rg.id :: _) rf.id = _
        unfold countDel
        rw [List.countP_cons]
        have h2 : isDeleteOf rf.id (Call.fileDelete rg.id) = false := by
          simp [isDeleteOf, hne]
        rw [h2]
        unfold countDel at ih
        rw [ih]
        simp

theorem countFC_delTrace (L : List (String × String)) (idx : List (String × RemoteFile))
    (q : String) :
    countFC (idx.filterMap (fun e =>
      if (alookup L e.1).isSome then none else some (Call.fileDelete e.2.id))) q = 0 := by
  unfold countFC
  rw [List.countP_eq_zero]
  intro c hc
  obtain ⟨e, _, he⟩ := List.mem_filterMap.mp hc
  by_cases hl : (alookup L e.1).isSome = true
  · simp [hl] at he
  · rw [if_neg hl] at he
    cases he
    simp [isFolderCreateAt]

theorem countFL_delTrace (L : List (String × String)) (idx : List (String × RemoteFile))
    (q : String) :
    countFL (idx.filterMap (fun e =>
      if (alookup L e.1).isSome then none else some (Call.fileDelete e.2.id))) q = 0 := by
  unfold countFL
  rw [List.countP_eq_zero]
  intro c hc
  obtain ⟨e, _, he⟩ := List.mem_filterMap.mp hc
  by_cases hl : (alookup L e.1).isSome = true
  · simp [hl] at he
  · rw [if_neg hl] at he
    cases he
    simp [isFolderListAt]

/-! ### The full run -/

theorem syncFiles_spec (rootID : Rid) (items : List WalkItem) (st0 : DriveSt)
    (hwf : DriveWF st0)
    (hroot : pathOf st0 rootID = some "")
    (hnd : (fileRels items).Nodup)
    (hclean : ∀ r ∈ fileRels items, cleanRel r)
    (hfiles : allFiles items) :
    SyncSpec rootID items st0 (syncFiles rootID items st0) := by
  have pinv0 : PInv rootID st0 ⟨[], [], st0, []⟩ := by
    refine ⟨hwf, ?_, hroot, fun q i hq => hq, fun e he => he, ?_, fun p _ => rfl, le_refl _⟩
    · intro q i hq
      simp [alookup] at hq
    · intro p h2 hp
      simp [alookup] at hp
  have pspec := processItems_spec items rootID st0 ⟨[], [], st0, []⟩ pinv0 hnd
    (fun r _ => rfl) hclean hfiles
  obtain ⟨pok, pinv, plocal, ⟨t, hteq, htnd, hcb, hlb⟩, pgrow, pchains⟩ := pspec
  set accF := (processItems st0.files rootID items ⟨[], [], st0, []⟩).2 with haccF
  set D := deleteRemoteFiles accF.localFiles st0.files accF.st with hD
  have heq : syncFiles rootID items st0 =
      ⟨Except.ok (), D.1, accF.localFiles, accF.trace ++ D.2⟩ := by
    rw [hD, haccF]
    simp only [syncFiles, pok]
  have hL : accF.localFiles = (pairsOf items).reverse := by
    rw [plocal, List.append_nil]
  have hLrev : ∀ q, alookup accF.localFiles q = alookup (pairsOf items) q := by
    intro q
    rw [hL]
    exact alookup_reverse hnd q
  have htr : accF.trace = t := by
    rw [hteq]
    rfl
  have hcur : ∀ p rf, (p, rf) ∈ st0.files → alookup accF.localFiles p = none →
      alookup accF.st.files p = some rf := by
    intro p rf hmem hnone
    rw [pinv.frame p hnone]
    exact alookup_of_mem_nodup hwf.filePathsND hmem
  have hdel := deleteRemoteFiles_files accF.localFiles st0.files accF.st
    hwf.filePathsND pinv.wf.filePathsND pinv.wf.fileIdsND hcur
  have hdt : D.2 = st0.files.filterMap (fun e =>
      if (alookup (pairsOf items) e.1).isSome then none
      else some (Call.fileDelete e.2.id)) := by
    rw [hD, deleteRemoteFiles_trace]
    apply filterMap_congr
    intro e _
    rw [hLrev e.1]
  have hfoldeq : D.1.folders = accF.st.folders := deleteRemoteFiles_folders _ _ _
  have hnexteq : D.1.nextId = accF.st.nextId := deleteRemoteFiles_nextId _ _ _
  have hnodelP : noDeletes accF.trace := by
    rw [htr]
    exact htnd
  rw [heq]
  refine ⟨rfl, ?_, ?_, ?_, ?_, ?_, hL, ⟨accF.trace, D.2, rfl, hnodelP, hdt⟩,
    ?_, ?_, ?_, ?_, ?_⟩
  · intro p
    show (alookup D.1.files p).map (fun e => e.md5) = alookup (pairsOf items) p
    cases hp : alookup (pairsOf items) p with
    | some h2 =>
      have hLp : alookup accF.localFiles p = some h2 := by rw [hLrev, hp]
      have hB : alookup D.1.files p = alookup accF.st.files p := by
        refine hdel.2.1 p (Or.inl ?_)
        rw [hLp]
        rfl
      obtain ⟨i, hi⟩ := pinv.conv p h2 hLp
      rw [hB, hi]
      rfl
    | none =>
      have hLp : alookup accF.localFiles p = none := by rw [hLrev, hp]
      cases hs : alookup st0.files p with
      | some rf =>
        have := hdel.1 p rf (alookup_mem hs) hLp
        rw [this]
        rfl
      | none =>
        have hB : alookup D.1.files p = alookup accF.st.files p := by
          refine hdel.2.1 p (Or.inr ?_)
          exact alookup_none_iff.mp hs
        rw [hB, pinv.frame p hLp, hs]
        rfl
  · intro e he
    show e ∈ D.1.folders
    rw [hfoldeq]
    exact pinv.foldersMem e he
  · intro q i hq
    show alookup D.1.folders q = some i
    rw [hfoldeq]
    exact pinv.foldersGrow q i hq
  · refine ⟨?_, ?_, ?_, ?_, ?_, ?_⟩
    · exact ((hdel.2.2.map _).nodup pinv.wf.filePathsND)
    · exact ((hdel.2.2.map _).nodup pinv.wf.fileIdsND)
    · rw [hfoldeq]
      exact pinv.wf.folderPathsND
    · rw [hfoldeq]
      exact pinv.wf.folderIdsND
    · intro e he
      rw [hnexteq]
      exact pinv.wf.fileIdsFresh e (hdel.2.2.subset he)
    · intro e he
      rw [hnexteq]
      rw [hfoldeq] at he
      exact pinv.wf.folderIdsFresh e he
  · show pathOf D.1 rootID = some ""
    unfold pathOf
    rw [hfoldeq]
    exact pinv.rootPath
  · intro p rf hmem hnone
    show countDel (accF.trace ++ D.2) rf.id = 1
    rw [countDel_append, countDel_zero_of_noDeletes hnodelP, hdt,
      countDel_delTrace (pairsOf items) st0.files hwf.fileIdsND hmem]
    rw [hnone]
    rfl
  · intro p rf hmem hsome
    show countDel (accF.trace ++ D.2) rf.id = 0
    rw [countDel_append, countDel_zero_of_noDeletes hnodelP, hdt,
      countDel_delTrace (pairsOf items) st0.files hwf.fileIdsND hmem]
    rw [hsome]
    simp
  · intro q
    show countFC (accF.trace ++ D.2) q ≤ 1
    rw [countFC_append, hdt, countFC_delTrace, htr]
    simpa using hcb.atMost q
  · intro q
    show countFL (accF.trace ++ D.2) q ≤ 1
    rw [countFL_append, hdt, countFL_delTrace, htr]
    simpa using hlb.atMost q
  · intro pr hmem horig q hq hq0
    show countFC (accF.trace ++ D.2) q = 1
    rw [countFC_append, hdt, countFC_delTrace, htr]
    have hpres := pchains pr hmem horig q hq
    rcases hcb.src q hpres with h1 | h1
    · rw [show (⟨[], [], st0, []⟩ : RunAcc).st = st0 from rfl] at h1
      rw [hq0] at h1
      exact absurd h1 (by simp)
    · have h2 := hcb.atMost q
      omega

/-! ### The second run -/

theorem processItems_allPresent (remoteIdx : List (String × RemoteFile)) (rootID : Rid) :
    ∀ (items : List WalkItem) (acc : RunAcc),
    (∀ pr ∈ pairsOf items, ∃ i, alookup remoteIdx pr.1 = some ⟨i, pr.2⟩) →
    allFiles items →
    processItems remoteIdx rootID items acc =
      (Except.ok (),
       ⟨(pairsOf items).reverse ++ acc.localFiles, acc.cache, acc.st, acc.trace⟩)
  | [], acc, _, _ => by
    simp [processItems, pairsOf]
  | WalkItem.fserr m :: rest, acc, _, hfiles => by
    have := hfiles (WalkItem.fserr m) (List.mem_cons_self _ _)
    simp [filePair] at this
  | WalkItem.file rel h :: rest, acc, hpres, hfiles => by
    obtain ⟨i, hi⟩ := hpres (rel, h) (by simp [pairsOf, filePair])
    have hu : uploadOrUpdateFile rel h remoteIdx rootID acc.cache acc.st =
        ⟨Except.ok (), acc.cache, acc.st, []⟩ := by
      simp only [uploadOrUpdateFile, hi]
      rfl
    have hpc : pairsOf (WalkItem.file rel h :: rest) = (rel, h) :: pairsOf rest := rfl
    have hpres1 : ∀ pr ∈ pairsOf rest, ∃ j, alookup remoteIdx pr.1 = some ⟨j, pr.2⟩ := by
      intro pr hpr
      exact hpres pr (by rw [hpc]; exact List.mem_cons_of_mem _ hpr)
    have hfiles1 : allFiles rest := fun it hit => hfiles it (List.mem_cons_of_mem _ hit)
    have ih := processItems_allPresent remoteIdx rootID rest
      ⟨(rel, h) :: acc.localFiles, acc.cache, acc.st, acc.trace ++ []⟩ hpres1 hfiles1
    have heq : processItems remoteIdx rootID (WalkItem.file rel h :: rest) acc =
        processItems remoteIdx rootID rest
          ⟨(rel, h) :: acc.localFiles, acc.cache, acc.st, acc.trace ++ []⟩ := by
      simp only [processItems, hu]
    rw [heq, ih]
    simp [pairsOf, filePair, List.filterMap_cons, List.append_assoc]

theorem syncFiles_secondRun (rootID : Rid) (items : List WalkItem) (st1 : DriveSt)
    (hwfp : (st1.files.map (fun e => e.1)).Nodup)
    (hnd : (fileRels items).Nodup)
    (hfiles : allFiles items)
    (hmirror : ∀ p, (alookup st1.files p).map (fun e => e.md5) = alookup (pairsOf items) p) :
    (syncFiles rootID items st1).res = Except.ok () ∧ (syncFiles rootID items st1).trace = [] := by
  have hpres : ∀ pr ∈ pairsOf items, ∃ i, alookup st1.files pr.1 = some ⟨i, pr.2⟩ := by
    intro pr hpr
    have h1 : alookup (pairsOf items) pr.1 = some pr.2 :=
      alookup_of_mem_nodup hnd (by rw [show (pr.1, pr.2) = pr from rfl]; exact hpr)
    have h2 := hmirror pr.1
    rw [h1] at h2
    obtain ⟨e, he, hmd⟩ := Option.map_eq_some'.mp h2
    refine ⟨e.id, ?_⟩
    rw [he]
    cases e
    simp at hmd
    rw [hmd]
  have hproc := processItems_allPresent st1.files rootID items ⟨[], [], st1, []⟩ hpres hfiles
  have hdelnil : (deleteRemoteFiles ((pairsOf items).reverse ++ []) st1.files st1).2 = [] := by
    rw [deleteRemoteFiles_trace]
    rw [List.filterMap_eq_nil_iff]
    intro e he
    have h1 : alookup st1.files e.1 = some e.2 :=
      alookup_of_mem_nodup hwfp (by rw [show (e.1, e.2) = e from rfl]; exact he)
    have h2 : (alookup ((pairsOf items).reverse ++ []) e.1).isSome = true := by
      rw [List.append_nil, alookup_reverse hnd, ← hmirror e.1, h1]
      rfl
    rw [if_pos h2]
  constructor
  · show (syncFiles rootID items st1).res = Except.ok ()
    simp only [syncFiles, hproc]
  · show (syncFiles rootID items st1).trace = []
    simp only [syncFiles, hproc, List.nil_append]
    exact hdelnil

/-! ### Claims -/

/-- C1: after a successful reconciliation run of one mapping (syncFiles
returns nil), every relative path of the local index has a remote entry at
the same relative path whose content hash equals the local fingerprint,
every remote file entry present at scan time whose path is absent from the
local index has been deleted, and no remote folder has been removed. -/
theorem c1_convergence (rootID : Rid) (items : List WalkItem) (st0 : DriveSt)
    (hwf : DriveWF st0) (hroot : pathOf st0 rootID = some "")
    (hnd : (fileRels items).Nodup) (hclean : ∀ r ∈ fileRels items, cleanRel r)
    (hfiles : allFiles items) :
    (syncFiles rootID items st0).res = Except.ok () ∧
    (∀ rel h, alookup (syncFiles rootID items st0).localFiles rel = some h →
      ∃ i, alookup (syncFiles rootID items st0).st.files rel = some ⟨i, h⟩) ∧
    (∀ p, (alookup st0.files p).isSome = true →
      alookup (syncFiles rootID items st0).localFiles p = none →
      alookup (syncFiles rootID items st0).st.files p = none) ∧
    (∀ e ∈ st0.folders, e ∈ (syncFiles rootID items st0).st.folders) := by
  obtain ⟨sok, smirror, sfmem, _, _, _, slocal, _, _, _, _, _, _⟩ :=
    syncFiles_spec rootID items st0 hwf hroot hnd hclean hfiles
  have hLrev : ∀ q, alookup (syncFiles rootID items st0).localFiles q =
      alookup (pairsOf items) q := by
    intro q
    rw [slocal]
    exact alookup_reverse hnd q
  refine ⟨sok, ?_, ?_, sfmem⟩
  · intro rel h hl
    rw [hLrev] at hl
    have h2 := smirror rel
    rw [hl] at h2
    obtain ⟨e, he, hmd⟩ := Option.map_eq_some'.mp h2
    refine ⟨e.id, ?_⟩
    rw [he]
    cases e
    simp at hmd
    rw [hmd]
  · intro p _ hl
    rw [hLrev] at hl
    have h2 := smirror p
    rw [hl] at h2
    exact Option.map_eq_none'.mp h2

theorem c1_convergence_witness :
    DriveWF demoSt0 ∧ pathOf demoSt0 demoRoot = some "" ∧
    (fileRels demoItems).Nodup ∧ (∀ r ∈ fileRels demoItems, cleanRel r) ∧
    allFiles demoItems ∧
    ((syncFiles demoRoot demoItems demoSt0).res = Except.ok () ∧
     (∀ rel h, alookup (syncFiles demoRoot demoItems demoSt0).localFiles rel = some h →
       ∃ i, alookup (syncFiles demoRoot demoItems demoSt0).st.files rel = some ⟨i, h⟩) ∧
     (∀ p, (alookup demoSt0.files p).isSome = true →
       alookup (syncFiles demoRoot demoItems demoSt0).localFiles p = none →
       alookup (syncFiles demoRoot demoItems demoSt0).st.files p = none) ∧
     (∀ e ∈ demoSt0.folders, e ∈ (syncFiles demoRoot demoItems demoSt0).st.folders)) := by
  have hwf : DriveWF demoSt0 :=
    ⟨by decide, by decide, by decide, by decide, by decide, by decide⟩
  exact ⟨hwf, rfl, by decide, by decide, by decide,
    c1_convergence demoRoot demoItems demoSt0 hwf rfl (by decide) (by decide) (by decide)⟩

/-- C2: running reconciliation once successfully and then again with the
local tree unchanged makes the second run issue zero remote calls: its trace
is empty, so in particular it contains no create, update or delete call. -/
theorem c2_idempotent (rootID : Rid) (items : List WalkItem) (st0 : DriveSt)
    (hwf : DriveWF st0) (hroot : pathOf st0 rootID = some "")
    (hnd : (fileRels items).Nodup) (hclean : ∀ r ∈ fileRels items, cleanRel r)
    (hfiles : allFiles items) :
    (syncFiles rootID items st0).res = Except.ok () ∧
    (syncFiles rootID items (syncFiles rootID items st0).st).res = Except.ok () ∧
    (syncFiles rootID items (syncFiles rootID items st0).st).trace = [] := by
  obtain ⟨sok, smirror, _, _, swf, _, _, _, _, _, _, _, _⟩ :=
    syncFiles_spec rootID items st0 hwf hroot hnd hclean hfiles
  have h2 := syncFiles_secondRun rootID items (syncFiles rootID items st0).st
    swf.filePathsND hnd hfiles smirror
  exact ⟨sok, h2.1, h2.2⟩

theorem c2_idempotent_witness :
    DriveWF demoSt0 ∧ pathOf demoSt0 demoRoot = some "" ∧
    (fileRels demoItems).Nodup ∧ (∀ r ∈ fileRels demoItems, cleanRel r) ∧
    allFiles demoItems ∧
    ((syncFiles demoRoot demoItems demoSt0).res = Except.ok () ∧
     (syncFiles demoRoot demoItems (syncFiles demoRoot demoItems demoSt0).st).res =
       Except.ok () ∧
     (syncFiles demoRoot demoItems (syncFiles demoRoot demoItems demoSt0).st).trace = []) := by
  have hwf : DriveWF demoSt0 :=
    ⟨by decide, by decide, by decide, by decide, by decide, by decide⟩
  exact ⟨hwf, rfl, by decide, by decide, by decide,
    c2_idempotent demoRoot demoItems demoSt0 hwf rfl (by decide) (by decide) (by decide)⟩

/-- C3: within one run, each distinct ancestor directory path triggers at
most one remote folder lookup call and at most one folder create call, and
for files whose directory chain is not yet present remotely each missing
ancestor is created exactly once, no matter how many files share it. -/
theorem c3_folder_dedup (rootID : Rid) (items : List WalkItem) (st0 : DriveSt)
    (hwf : DriveWF st0) (hroot : pathOf st0 rootID = some "")
    (hnd : (fileRels items).Nodup) (hclean : ∀ r ∈ fileRels items, cleanRel r)
    (hfiles : allFiles items) :
    (∀ q, countFL (syncFiles rootID items st0).trace q ≤ 1) ∧
    (∀ q, countFC (syncFiles rootID items st0).trace q ≤ 1) ∧
    (∀ rel h, (rel, h) ∈ pairsOf items → alookup st0.files rel = none →
      ∀ q ∈ dirKeys rel, alookup st0.folders q = none →
        countFC (syncFiles rootID items st0).trace q = 1) := by
  obtain ⟨_, _, _, _, _, _, _, _, _, _, sfc, sfl, schain⟩ :=
    syncFiles_spec rootID items st0 hwf hroot hnd hclean hfiles
  exact ⟨sfl, sfc, fun rel h hmem habs q hq hq0 => schain (rel, h) hmem habs q hq hq0⟩

theorem c3_folder_dedup_witness :
    DriveWF demoSt0 ∧ pathOf demoSt0 demoRoot = some "" ∧
    (fileRels demoItems).Nodup ∧ (∀ r ∈ fileRels demoItems, cleanRel r) ∧
    allFiles demoItems ∧
    ((∀ q, countFL (syncFiles demoRoot demoItems demoSt0).trace q ≤ 1) ∧
     (∀ q, countFC (syncFiles demoRoot demoItems demoSt0).trace q ≤ 1) ∧
     (∀ rel h, (rel, h) ∈ pairsOf demoItems → alookup demoSt0.files rel = none →
       ∀ q ∈ dirKeys rel, alookup demoSt0.folders q = none →
         countFC (syncFiles demoRoot demoItems demoSt0).trace q = 1)) := by
  have hwf : DriveWF demoSt0 :=
    ⟨by decide, by decide, by decide, by decide, by decide, by decide⟩
  exact ⟨hwf, rfl, by decide, by decide, by decide,
    c3_folder_dedup demoRoot demoItems demoSt0 hwf rfl (by decide) (by decide) (by decide)⟩

/-- C4: within one run the trace splits into the walk part followed by the
deletion part; the walk part contains no delete call, and the deletion part
deletes exactly the scanned file entries whose paths the completed local
index does not contain, each exactly once. -/
theorem c4_delete_last (rootID : Rid) (items : List WalkItem) (st0 : DriveSt)
    (hwf : DriveWF st0) (hroot : pathOf st0 rootID = some "")
    (hnd : (fileRels items).Nodup) (hclean : ∀ r ∈ fileRels items, cleanRel r)
    (hfiles : allFiles items) :
    (∃ pt dt, (syncFiles rootID items st0).trace = pt ++ dt ∧ noDeletes pt ∧
      dt = st0.files.filterMap (fun e =>
        if (alookup (syncFiles rootID items st0).localFiles e.1).isSome then none
        else some (Call.fileDelete e.2.id))) ∧
    (∀ p rf, (p, rf) ∈ st0.files →
      alookup (syncFiles rootID items st0).localFiles p = none →
      countDel (syncFiles rootID items st0).trace rf.id = 1) ∧
    (∀ p rf, (p, rf) ∈ st0.files →
      (alookup (syncFiles rootID items st0).localFiles p).isSome = true →
      countDel (syncFiles rootID items st0).trace rf.id = 0) := by
  obtain ⟨_, _, _, _, _, _, slocal, ⟨pt, dt, hsplit, hptnd, hdt⟩, sonce, snone, _, _, _⟩ :=
    syncFiles_spec rootID items st0 hwf hroot hnd hclean hfiles
  have hLrev : ∀ q, alookup (syncFiles rootID items st0).localFiles q =
      alookup (pairsOf items) q := by
    intro q
    rw [slocal]
    exact alookup_reverse hnd q
  refine ⟨⟨pt, dt, hsplit, hptnd, ?_⟩, ?_, ?_⟩
  · rw [hdt]
    apply filterMap_congr
    intro e _
    rw [hLrev e.1]
  · intro p rf hmem hl
    exact sonce p rf hmem (by rw [← hLrev]; exact hl)
  · intro p rf hmem hl
    exact snone p rf hmem (by rw [← hLrev]; exact hl)

theorem c4_delete_last_witness :
    DriveWF demoSt0 ∧ pathOf demoSt0 demoRoot = some "" ∧
    (fileRels demoItems).Nodup ∧ (∀ r ∈ fileRels demoItems, cleanRel r) ∧
    allFiles demoItems ∧
    ((∃ pt dt, (syncFiles demoRoot demoItems demoSt0).trace = pt ++ dt ∧ noDeletes pt ∧
      dt = demoSt0.files.filterMap (fun e =>
        if (alookup (syncFiles demoRoot demoItems demoSt0).localFiles e.1).isSome then none
        else some (Call.fileDelete e.2.id))) ∧
     (∀ p rf, (p, rf) ∈ demoSt0.files →
       alookup (syncFiles demoRoot demoItems demoSt0).localFiles p = none →
       countDel (syncFiles demoRoot demoItems demoSt0).trace rf.id = 1) ∧
     (∀ p rf, (p, rf) ∈ demoSt0.files →
       (alookup (syncFiles demoRoot demoItems demoSt0).localFiles p).isSome = true →
       countDel (syncFiles demoRoot demoItems demoSt0).trace rf.id = 0)) := by
  have hwf : DriveWF demoSt0 :=
    ⟨by decide, by decide, by decide, by decide, by decide, by decide⟩
  exact ⟨hwf, rfl, by decide, by decide, by decide,
    c4_delete_last demoRoot demoItems demoSt0 hwf rfl (by decide) (by decide) (by decide)⟩

/-- C5: for a local entry whose relative path is present in the scanned
index, equal hashes make the per-file action a no-op (no call, store
untouched), and different hashes make it update the existing object in place
through its existing id: the trace is a single update call, the entry keeps
its id with the new hash, every other path is untouched, and no folder
changes. -/
theorem c5_present_paths (st : DriveSt) (remoteFiles : List (String × RemoteFile))
    (rel h : String) (rf : RemoteFile) (rootID : Rid) (cache : List (String × Rid))
    (hids : (st.files.map (fun e => e.2.id)).Nodup)
    (hpres : alookup remoteFiles rel = some rf)
    (hst : alookup st.files rel = some rf) :
    (rf.md5 = h →
      uploadOrUpdateFile rel h remoteFiles rootID cache st =
        ⟨Except.ok (), cache, st, []⟩) ∧
    (rf.md5 ≠ h →
      (uploadOrUpdateFile rel h remoteFiles rootID cache st).trace =
        [Call.fileUpdate rf.id h] ∧
      (uploadOrUpdateFile rel h remoteFiles rootID cache st).res = Except.ok () ∧
      (uploadOrUpdateFile rel h remoteFiles rootID cache st).cache = cache ∧
      alookup (uploadOrUpdateFile rel h remoteFiles rootID cache st).st.files rel =
        some ⟨rf.id, h⟩ ∧
      (∀ p, p ≠ rel →
        alookup (uploadOrUpdateFile rel h remoteFiles rootID cache st).st.files p =
          alookup st.files p) ∧
      (uploadOrUpdateFile rel h remoteFiles rootID cache st).st.folders = st.folders) := by
  constructor
  · intro hmd
    simp only [uploadOrUpdateFile, hpres, hmd, if_pos]
  · intro hmd
    have heq : uploadOrUpdateFile rel h remoteFiles rootID cache st =
        ⟨Except.ok (), cache, (updateFile h rf.id st).1, (updateFile h rf.id st).2⟩ := by
      simp only [uploadOrUpdateFile, hpres, hmd, if_neg, if_false]
    rw [heq]
    refine ⟨rfl, rfl, rfl, ?_, ?_, rfl⟩
    · show alookup (updateFile h rf.id st).1.files rel = some ⟨rf.id, h⟩
      rw [alookup_updateFile, hst]
      simp
    · intro p hp
      show alookup (updateFile h rf.id st).1.files p = alookup st.files p
      rw [alookup_updateFile]
      cases hsp : alookup st.files p with
      | none => rfl
      | some v =>
        have hv : v.id ≠ rf.id := entry_id_unique hids (alookup_mem hst) (alookup_mem hsp) hp
        simp [hv]

theorem c5_present_paths_witness :
    ((demoSt0.files.map (fun e => e.2.id)).Nodup ∧
     alookup demoSt0.files "old.txt" = some ⟨Sum.inl "F1", "h0"⟩ ∧
     alookup demoSt0.files "old.txt" = some ⟨Sum.inl "F1", "h0"⟩) ∧
    (((⟨Sum.inl "F1", "h0"⟩ : RemoteFile).md5 = "h9" →
      uploadOrUpdateFile "old.txt" "h9" demoSt0.files demoRoot [] demoSt0 =
        ⟨Except.ok (), [], demoSt0, []⟩) ∧
     ((⟨Sum.inl "F1", "h0"⟩ : RemoteFile).md5 ≠ "h9" →
      (uploadOrUpdateFile "old.txt" "h9" demoSt0.files demoRoot [] demoSt0).trace =
        [Call.fileUpdate (Sum.inl "F1") "h9"] ∧
      (uploadOrUpdateFile "old.txt" "h9" demoSt0.files demoRoot [] demoSt0).res =
        Except.ok () ∧
      (uploadOrUpdateFile "old.txt" "h9" demoSt0.files demoRoot [] demoSt0).cache = [] ∧
      alookup (uploadOrUpdateFile "old.txt" "h9" demoSt0.files demoRoot [] demoSt0).st.files
        "old.txt" = some ⟨Sum.inl "F1", "h9"⟩ ∧
      (∀ p, p ≠ "old.txt" →
        alookup (uploadOrUpdateFile "old.txt" "h9" demoSt0.files demoRoot [] demoSt0).st.files
          p = alookup demoSt0.files p) ∧
      (uploadOrUpdateFile "old.txt" "h9" demoSt0.files demoRoot [] demoSt0).st.folders =
        demoSt0.folders)) :=
  ⟨⟨by decide, rfl, rfl⟩,
   c5_present_paths demoSt0 demoSt0.files "old.txt" "h9" ⟨Sum.inl "F1", "h0"⟩ demoRoot []
     (by decide) rfl rfl⟩

/-- C7 counterexample: in a store whose remote tree has a folder at relative
path a and no file entry there, the per-file decision for a local file at
path a does not take the present branch: it issues a create call for a new
file (so the path was treated as absent, and no hash comparison with the
folder happened). -/
theorem c7_counterexample :
    alookup demoMismatchSt.folders "a" = some (Sum.inl "FA") ∧
    alookup demoMismatchSt.files "a" = none ∧
    (uploadOrUpdateFile "a" "h1" demoMismatchSt.files (Sum.inl "R") [] demoMismatchSt).trace =
      [Call.fileCreate "a" (Sum.inl "R") "a" "h1" (Sum.inr 0)] := by
  refine ⟨by decide, rfl, ?_⟩
  rfl

/-- C7 amended: a relative path with no entry in the scanned file index is
treated as absent even when a remote folder occupies the same path: the
per-file decision takes the create branch (uploadFile), never the hash
comparison of the present branch, because the scanned index holds only
non-folder entries. -/
theorem c7_mismatch_absent (rel h : String) (remoteFiles : List (String × RemoteFile))
    (rootID : Rid) (cache : List (String × Rid)) (st : DriveSt)
    (_hfolder : (alookup st.folders rel).isSome = true)
    (hnofile : alookup remoteFiles rel = none) :
    uploadOrUpdateFile rel h remoteFiles rootID cache st =
      uploadFile rel h rootID cache st := by
  simp only [uploadOrUpdateFile, hnofile]

theorem c7_mismatch_absent_witness :
    (alookup demoMismatchSt.folders "a").isSome = true ∧
    alookup demoMismatchSt.files "a" = none ∧
    uploadOrUpdateFile "a" "h1" demoMismatchSt.files (Sum.inl "R") [] demoMismatchSt =
      uploadFile "a" "h1" (Sum.inl "R") [] demoMismatchSt :=
  ⟨by decide, rfl,
   c7_mismatch_absent "a" "h1" demoMismatchSt.files (Sum.inl "R") [] demoMismatchSt
     (by decide) rfl⟩

/-- C10: a walk error after a successfully processed prefix aborts the
mapping before its orphan-deletion pass: the run reports the error, its trace
contains no delete call, and the store is exactly the store after the prefix
was processed, so creates and updates already applied remain in place. -/
theorem c10_abort_before_delete (rootID : Rid) (pre post : List WalkItem) (m : String)
    (st0 : DriveSt)
    (hwf : DriveWF st0) (hroot : pathOf st0 rootID = some "")
    (hnd : (fileRels pre).Nodup) (hclean : ∀ r ∈ fileRels pre, cleanRel r)
    (hfiles : allFiles pre) :
    (syncFiles rootID (pre ++ WalkItem.fserr m :: post) st0).res = Except.error m ∧
    noDeletes (syncFiles rootID (pre ++ WalkItem.fserr m :: post) st0).trace ∧
    (syncFiles rootID (pre ++ WalkItem.fserr m :: post) st0).st =
      (processItems st0.files rootID pre ⟨[], [], st0, []⟩).2.st := by
  have pinv0 : PInv rootID st0 ⟨[], [], st0, []⟩ := by
    refine ⟨hwf, ?_, hroot, fun q i hq => hq, fun e he => he, ?_, fun p _ => rfl, le_refl _⟩
    · intro q i hq
      simp [alookup] at hq
    · intro p h2 hp
      simp [alookup] at hp
  obtain ⟨pok, _, _, ⟨t, hteq, htnd, _, _⟩, _, _⟩ :=
    processItems_spec pre rootID st0 ⟨[], [], st0, []⟩ pinv0 hnd (fun r _ => rfl) hclean hfiles
  have happ : processItems st0.files rootID (pre ++ WalkItem.fserr m :: post) ⟨[], [], st0, []⟩ =
      processItems st0.files rootID (WalkItem.fserr m :: post)
        (processItems st0.files rootID pre ⟨[], [], st0, []⟩).2 :=
    processItems_append st0.files rootID pre (WalkItem.fserr m :: post) ⟨[], [], st0, []⟩ pok
  have hstep : processItems st0.files rootID (WalkItem.fserr m :: post)
      (processItems st0.files rootID pre ⟨[], [], st0, []⟩).2 =
      (Except.error m, (processItems st0.files rootID pre ⟨[], [], st0, []⟩).2) := rfl
  have hfullTrace : (processItems st0.files rootID pre ⟨[], [], st0, []⟩).2.trace = t := by
    rw [hteq]
    rfl
  refine ⟨?_, ?_, ?_⟩
  · show (syncFiles rootID (pre ++ WalkItem.fserr m :: post) st0).res = Except.error m
    simp only [syncFiles, happ, hstep]
  · show noDeletes (syncFiles rootID (pre ++ WalkItem.fserr m :: post) st0).trace
    have : (syncFiles rootID (pre ++ WalkItem.fserr m :: post) st0).trace =
        (processItems st0.files rootID pre ⟨[], [], st0, []⟩).2.trace := by
      simp only [syncFiles, happ, hstep]
    rw [this, hfullTrace]
    exact htnd
  · show (syncFiles rootID (pre ++ WalkItem.fserr m :: post) st0).st =
      (processItems st0.files rootID pre ⟨[], [], st0, []⟩).2.st
    simp only [syncFiles, happ, hstep]

theorem c10_abort_before_delete_witness :
    DriveWF demoSt0 ∧ pathOf demoSt0 demoRoot = some "" ∧
    (fileRels [WalkItem.file "a.txt" "h1"]).Nodup ∧
    (∀ r ∈ fileRels [WalkItem.file "a.txt" "h1"], cleanRel r) ∧
    allFiles [WalkItem.file "a.txt" "h1"] ∧
    ((syncFiles demoRoot ([WalkItem.file "a.txt" "h1"] ++ WalkItem.fserr "boom" ::
        [WalkItem.file "sub/b.txt" "h2"]) demoSt0).res = Except.error "boom" ∧
     noDeletes (syncFiles demoRoot ([WalkItem.file "a.txt" "h1"] ++ WalkItem.fserr "boom" ::
        [WalkItem.file "sub/b.txt" "h2"]) demoSt0).trace ∧
     (syncFiles demoRoot ([WalkItem.file "a.txt" "h1"] ++ WalkItem.fserr "boom" ::
        [WalkItem.file "sub/b.txt" "h2"]) demoSt0).st =
       (processItems demoSt0.files demoRoot [WalkItem.file "a.txt" "h1"]
         ⟨[], [], demoSt0, []⟩).2.st) := by
  have hwf : DriveWF demoSt0 :=
    ⟨by decide, by decide, by decide, by decide, by decide, by decide⟩
  exact ⟨hwf, rfl, by decide, by decide, by decide,
    c10_abort_before_delete demoRoot [WalkItem.file "a.txt" "h1"]
      [WalkItem.file "sub/b.txt" "h2"] "boom" demoSt0 hwf rfl (by decide) (by decide)
      (by decide)⟩

/-! ### The remote scan -/

theorem fetch_first_call (cid cpath : String) (cpgs : List (List REntry)) (h : cpgs ≠ []) :
    ScanEv.listCall cid 0 ∈ (fetchRemoteFiles cid cpath 0 cpgs).1 := by
  cases cpgs with
  | nil => exact absurd rfl h
  | cons pg rest =>
    simp only [fetchRemoteFiles]
    exact List.mem_cons_self _ _

theorem fetchEntries_child (path : String) :
    ∀ (pg : List REntry) (n cid : String) (cpgs : List (List REntry)),
    REntry.folder n cid cpgs ∈ pg → cpgs ≠ [] →
    ScanEv.listCall cid 0 ∈ (fetchEntries path pg).1
  | [], n, cid, cpgs, hmem, _ => by simp at hmem
  | REntry.file n2 i2 h2 :: rest, n, cid, cpgs, hmem, hne => by
    have hmem2 : REntry.folder n cid cpgs ∈ rest := by
      rcases List.mem_cons.mp hmem with h1 | h1
      · exact absurd h1 (by intro hh; cases hh)
      · exact h1
    have ih := fetchEntries_child path rest n cid cpgs hmem2 hne
    simp only [fetchEntries]
    exact ih
  | REntry.folder n2 i2 pgs2 :: rest, n, cid, cpgs, hmem, hne => by
    simp only [fetchEntries]
    rcases List.mem_cons.mp hmem with h1 | h1
    · rw [REntry.folder.injEq] at h1
      obtain ⟨e1, e2, e3⟩ := h1
      subst e1
      subst e2
      subst e3
      exact List.mem_append_left _ (fetch_first_call cid (joinPath path n) cpgs hne)
    · exact List.mem_append_right _ (fetchEntries_child path rest n cid cpgs h1 hne)

theorem fetch_all_pages (pid path : String) :
    ∀ (pgs : List (List REntry)) (i k : Nat), k < pgs.length →
    ScanEv.listCall pid (i + k) ∈ (fetchRemoteFiles pid path i pgs).1
  | [], i, k, hk => absurd hk (by simp)
  | pg :: rest, i, 0, _ => by
    simp only [fetchRemoteFiles, Nat.add_zero]
    exact List.mem_cons_self _ _
  | pg :: rest, i, k + 1, hk => by
    have ih := fetch_all_pages pid path rest (i + 1) k (by simpa using hk)
    simp only [fetchRemoteFiles]
    refine List.mem_cons_of_mem _ (List.mem_append_right _ ?_)
    have harith : i + (k + 1) = (i + 1) + k := by omega
    rw [harith]
    exact ih

theorem fetch_child_after_page (pid path : String) :
    ∀ (pgs : List (List REntry)) (i k : Nat) (pg : List REntry) (n cid : String)
      (cpgs : List (List REntry)),
    pgs.get? k = some pg → REntry.folder n cid cpgs ∈ pg → cpgs ≠ [] →
    List.Sublist [ScanEv.listCall pid (i + k), ScanEv.listCall cid 0]
      (fetchRemoteFiles pid path i pgs).1
  | [], i, k, pg, n, cid, cpgs, hget, _, _ => by simp at hget
  | pg0 :: rest, i, 0, pg, n, cid, cpgs, hget, hmem, hne => by
    rw [List.get?_cons_zero] at hget
    injection hget with hpg
    subst hpg
    simp only [fetchRemoteFiles, Nat.add_zero]
    refine List.Sublist.cons₂ _ ?_
    rw [List.singleton_sublist]
    exact List.mem_append_left _ (fetchEntries_child path pg0 n cid cpgs hmem hne)
  | pg0 :: rest, i, k + 1, pg, n, cid, cpgs, hget, hmem, hne => by
    rw [List.get?_cons_succ] at hget
    have ih := fetch_child_after_page pid path rest (i + 1) k pg n cid cpgs hget hmem hne
    simp only [fetchRemoteFiles]
    have harith : i + (k + 1) = (i + 1) + k := by omega
    rw [harith]
    refine List.Sublist.cons _ ?_
    exact ih.trans (List.sublist_append_right _ _)

/-- C6 counterexample: scanning a root R whose first page holds the subfolder
S and whose second page holds a plain file produces the trace
[list R page0, list S page0, list R page1]: the recursion into the child
folder S starts at position 1, strictly before the parent exhausts its
pagination at position 2, and the parent final page is absent from the trace
prefix up to and including the child call, refuting the claim that a
subfolder is visited only after the parent listing has exhausted all pages. -/
theorem c6_counterexample :
    (fetchRemoteFiles "R" "" 0 demoPages).1 =
      [ScanEv.listCall "R" 0, ScanEv.listCall "S" 0, ScanEv.listCall "R" 1] ∧
    (fetchRemoteFiles "R" "" 0 demoPages).1.get? 1 = some (ScanEv.listCall "S" 0) ∧
    ((fetchRemoteFiles "R" "" 0 demoPages).1.take 2).count (ScanEv.listCall "R" 1) = 0 := by
  have h : (fetchRemoteFiles "R" "" 0 demoPages).1 =
      [ScanEv.listCall "R" 0, ScanEv.listCall "S" 0, ScanEv.listCall "R" 1] := by
    simp [demoPages, fetchRemoteFiles, fetchEntries]
  refine ⟨h, ?_, ?_⟩
  · rw [h]
    rfl
  · rw [h]
    decide

/-- C6 amended: the scanner fetches every page of a folder it reaches before
its scan returns, and it recurses into a child folder as soon as the page
carrying that child has been fetched: the child listing starts after the
parent page containing it, not necessarily after the parent final page. -/
theorem c6_scan_pagination (pid path : String) (pgs : List (List REntry)) (i : Nat) :
    (∀ k, k < pgs.length →
      ScanEv.listCall pid (i + k) ∈ (fetchRemoteFiles pid path i pgs).1) ∧
    (∀ k pg n cid cpgs, pgs.get? k = some pg →
      REntry.folder n cid cpgs ∈ pg → cpgs ≠ [] →
      List.Sublist [ScanEv.listCall pid (i + k), ScanEv.listCall cid 0]
        (fetchRemoteFiles pid path i pgs).1) :=
  ⟨fun k hk => fetch_all_pages pid path pgs i k hk,
   fun k pg n cid cpgs h1 h2 h3 => fetch_child_after_page pid path pgs i k pg n cid cpgs h1 h2 h3⟩

theorem c6_scan_pagination_witness :
    (demoPages.get? 0 = some [REntry.folder "s" "S" [[REntry.file "b" "FB" "h2"]]] ∧
     REntry.folder "s" "S" [[REntry.file "b" "FB" "h2"]] ∈
       [REntry.folder "s" "S" [[REntry.file "b" "FB" "h2"]]] ∧
     ([[REntry.file "b" "FB" "h2"]] : List (List REntry)) ≠ []) ∧
    (1 < demoPages.length ∧
     ScanEv.listCall "R" (0 + 1) ∈ (fetchRemoteFiles "R" "" 0 demoPages).1) ∧
    List.Sublist [ScanEv.listCall "R" (0 + 0), ScanEv.listCall "S" 0]
      (fetchRemoteFiles "R" "" 0 demoPages).1 := by
  refine ⟨⟨rfl, List.mem_cons_self _ _, by simp⟩, ⟨by simp [demoPages], ?_⟩, ?_⟩
  · exact (c6_scan_pagination "R" "" demoPages 0).1 1 (by simp [demoPages])
  · exact (c6_scan_pagination "R" "" demoPages 0).2 0 _ "s" "S" _ rfl
      (List.mem_cons_self _ _) (by simp)

/-! ### The process entry point -/

/-- C8: if reading the mapping configuration fails, or decoding it fails, or
the remote session cannot be established, the process exits with status 1
and no mapping reconciliation is attempted. -/
theorem c8_fatal_startup (env : MainEnv) (h : ¬ startupOk env) : mainGo env = (1, []) := by
  cases hr : env.readRes with
  | error e => simp only [mainGo, hr]
  | ok raw =>
    cases hp : env.parseRes raw with
    | error e => simp only [mainGo, hr, hp]
    | ok dirMap =>
      cases hd : env.driveRes with
      | error e => simp only [mainGo, getDriveService, hr, hp, hd]
      | ok u =>
        refine absurd ⟨raw, dirMap, hr, hp, ?_⟩ h
        cases u
        exact hd

theorem c8_fatal_startup_witness :
    (¬ startupOk ⟨Except.error "no file",
        fun _ => Except.ok [], Except.ok (), fun _ _ => none⟩) ∧
    mainGo ⟨Except.error "no file",
        fun _ => Except.ok [], Except.ok (), fun _ _ => none⟩ = (1, []) := by
  have h : ¬ startupOk ⟨Except.error "no file",
      fun _ => Except.ok [], Except.ok (), fun _ _ => none⟩ := by
    rintro ⟨raw, dirMap, hr, -, -⟩
    exact Except.noConfusion hr
  exact ⟨h, c8_fatal_startup _ h⟩

/-- C9: when startup succeeds, every configured mapping reconciliation runs
to completion with its own recorded outcome, and the process exits 0, even
when some of the mappings fail: a mapping failure is reported in its event
but changes neither the exit status nor any other mapping. -/
theorem c9_mapping_isolation (env : MainEnv) (raw : String)
    (dirMap : List (String × String))
    (hr : env.readRes = Except.ok raw) (hp : env.parseRes raw = Except.ok dirMap)
    (hd : env.driveRes = Except.ok ()) :
    (mainGo env).1 = 0 ∧
    (mainGo env).2 = dirMap.map (fun m => MainEv.syncDone m.1 m.2 (env.syncRes m.1 m.2)) := by
  have heq : mainGo env =
      (0, dirMap.map (fun m => MainEv.syncDone m.1 m.2 (env.syncRes m.1 m.2))) := by
    simp only [mainGo, getDriveService, hr, hp, hd]
  rw [heq]
  exact ⟨rfl, rfl⟩

theorem c9_mapping_isolation_witness :
    ((⟨Except.ok "raw", fun _ => Except.ok [("d1", "r1"), ("d2", "r2")], Except.ok (),
        fun d _ => if d = "d1" then some "boom" else none⟩ : MainEnv).readRes =
      Except.ok "raw" ∧
     (⟨Except.ok "raw", fun _ => Except.ok [("d1", "r1"), ("d2", "r2")], Except.ok (),
        fun d _ => if d = "d1" then some "boom" else none⟩ : MainEnv).parseRes "raw" =
      Except.ok [("d1", "r1"), ("d2", "r2")] ∧
     (⟨Except.ok "raw", fun _ => Except.ok [("d1", "r1"), ("d2", "r2")], Except.ok (),
        fun d _ => if d = "d1" then some "boom" else none⟩ : MainEnv).driveRes =
      Except.ok ()) ∧
    ((mainGo ⟨Except.ok "raw", fun _ => Except.ok [("d1", "r1"), ("d2", "r2")], Except.ok (),
        fun d _ => if d = "d1" then some "boom" else none⟩).1 = 0 ∧
     (mainGo ⟨Except.ok "raw", fun _ => Except.ok [("d1", "r1"), ("d2", "r2")], Except.ok (),
        fun d _ => if d = "d1" then some "boom" else none⟩).2 =
       [("d1", "r1"), ("d2", "r2")].map (fun m => MainEv.syncDone m.1 m.2
         (if m.1 = "d1" then some "boom" else none))) ∧
    (mainGo ⟨Except.ok "raw", fun _ => Except.ok [("d1", "r1"), ("d2", "r2")], Except.ok (),
        fun d _ => if d = "d1" then some "boom" else none⟩).2 =
      [MainEv.syncDone "d1" "r1" (some "boom"), MainEv.syncDone "d2" "r2" none] := by
  refine ⟨⟨rfl, rfl, rfl⟩, ?_, by decide⟩
  exact c9_mapping_isolation _ "raw" [("d1", "r1"), ("d2", "r2")] rfl rfl rfl

end CloudSyncer
